import Mathlib

/-!
# Channel change-log wire format (`channels/change_log_encoder.go`)

A shallow embedding of the encoder, the decoder and the wire-level truncator of
`sync_gateway`'s per-channel change log, with the properties of the format
proved over it.

Conventions of the embedding

* A byte is a natural number below 256 (`Byte`); every conversion to a byte in
  the source (`byte(x)`, `uint8(n)`) is an explicit `% 256`.
* A Go `string` is its byte sequence, `List Byte`; the empty string is `[]`.
* `uint64` values are naturals; where the source can overflow 64 bits the
  embedding reduces `% 2 ^ 64`.  `int` is the 64-bit signed integer, and the one
  subtraction on it in the source goes through `wrapInt`.
* A `*bytes.Reader` is the pair of its backing slice and its read offset
  (`Reader`); seeking past the end is allowed, reading there reports EOF.
* An `io.Writer` is a `bytes.Buffer`: writes never fail.  A run that writes is
  described by the bytes that reached the sink and the panic that stopped it,
  if one did (`Wrote`, `Truncated`).
* A Go `panic` is a value of `Failure`.
* Loops that the source bounds only by the input are given fuel; the top-level
  functions supply enough of it, and `Failure.fuel` marks running out.
* `encoding/binary` (`PutUvarint`, `ReadUvarint`) follows the Go standard
  library, with the read loop bounded by `MaxVarintLen64 = 10`.
-/

namespace channels

/-- One octet, as a natural number below 256. -/
abbrev Byte := Nat

/-- The panics of the encoder, decoder and truncator. -/
inductive Failure where
  /-- Decoder: `panic("bad flags")`. -/
  | badFlags
  /-- Truncator: `panic(fmt.Sprintf("bad flags %x, entry %d, offset %d", ...))`. -/
  | badFlagsAt (flags entry offset : Nat)
  /-- Reader: `panic("readString length failed")`. -/
  | readStringLength
  /-- Reader: `panic("readString bytes failed")`. -/
  | readStringBytes
  /-- Writer: `panic("Doc/rev ID too long to encode: " + s)`. -/
  | idTooLong (s : List Byte)
  /-- Go runtime: index out of range. -/
  | indexOutOfRange
  /-- The embedding ran out of fuel (never the case from the top-level functions). -/
  | fuel
  deriving DecidableEq, Repr

/-- Equality of outcomes is decidable, so that concrete runs can be evaluated. -/
instance instDecidableEqExcept {ε α : Type} [DecidableEq ε] [DecidableEq α] :
    DecidableEq (Except ε α) := fun a b =>
  match a, b with
  | Except.ok x, Except.ok y =>
    if h : x = y then isTrue (congrArg Except.ok h)
    else isFalse (fun h2 => h (Except.ok.inj h2))
  | Except.error x, Except.error y =>
    if h : x = y then isTrue (congrArg Except.error h)
    else isFalse (fun h2 => h (Except.error.inj h2))
  | Except.ok _, Except.error _ => isFalse (fun h2 => Except.noConfusion h2)
  | Except.error _, Except.ok _ => isFalse (fun h2 => Except.noConfusion h2)

/-- Modelled from the spec: the `LogEntry` struct, declared in a file that is not
among the sources.  `Sequence` is a `uint64`, `Flags` a `uint8`, the ids are
strings. -/
structure LogEntry where
  Sequence : Nat
  DocID : List Byte
  RevID : List Byte
  Flags : Nat
  deriving DecidableEq, Repr

/-- Modelled from the spec: the `ChangeLog` struct, declared in a file that is not
among the sources.  `Entries` is `[]*LogEntry` in insertion order. -/
structure ChangeLog where
  Since : Nat
  Entries : List LogEntry
  deriving DecidableEq, Repr

/-- A run that writes to the sink: the bytes written, and the panic that ended
the run early, if any. -/
structure Wrote where
  out : List Byte
  panic : Option Failure
  deriving DecidableEq, Repr

/-- Sequencing of two writes: the second runs only if the first did not panic. -/
def Wrote.andThen (a b : Wrote) : Wrote :=
  match a.panic with
  | some f => ⟨a.out, some f⟩
  | none => ⟨a.out ++ b.out, b.panic⟩

/-- The `bytes.Reader`: backing slice `s`, read offset `i`. -/
structure Reader where
  s : List Byte
  i : Nat
  deriving DecidableEq, Repr

/-- Go `bytes.NewReader(b)`. -/
def NewReader (b : List Byte) : Reader := ⟨b, 0⟩

/-- Go `r.ReadByte()`, also `r.Read(buf[0:1])`: the byte at the offset, or `none` at
EOF (offset at or past the end). -/
def Reader.ReadByte (r : Reader) : Option Byte × Reader :=
  match r.s[r.i]? with
  | some b => (some b, { r with i := r.i + 1 })
  | none => (none, r)

/-- Go `r.Seek(abs, 0)`. -/
def Reader.SeekTo (r : Reader) (abs : Nat) : Reader := { r with i := abs }

/-- Go `binary.PutUvarint`: the loop `for x >= 0x80` runs at most nine times on a
`uint64`, which is the fuel given by `writeSequence`. -/
def PutUvarint : Nat → Nat → List Byte
  | 0, x => [x % 256]
  | n + 1, x =>
    if x ≥ 0x80 then ((x % 256) ||| 0x80) :: PutUvarint n (x >>> 7)
    else [x % 256]

/-- Source `writeSequence(seq, w)`. -/
def writeSequence (seq : Nat) : Wrote := ⟨PutUvarint 9 seq, none⟩

/-- Go `binary.ReadUvarint`: `n` iterations are left, `i` is the loop index, `x` the
accumulator and `s` the shift.  The error is dropped by `readSequence`, so only
the value and the reader are returned. -/
def ReadUvarint : Nat → Reader → Nat → Nat → Nat → Nat × Reader
  | 0, r, _, x, _ => (x, r)
  | n + 1, r, i, x, s =>
    match r.ReadByte with
    | (none, r1) => (x, r1)
    | (some b, r1) =>
      if b < 0x80 then
        if i = 9 ∧ b > 1 then (x, r1)
        else (x ||| (b <<< s), r1)
      else ReadUvarint n r1 (i + 1) ((x ||| ((b &&& 0x7f) <<< s)) % 2 ^ 64) (s + 7)

/-- Source `readSequence(r)`: `seq, _ := binary.ReadUvarint(r)`. -/
def readSequence (r : Reader) : Nat × Reader := ReadUvarint 10 r 0 0 0

/-- Source `writeString(s, w)`: the panic on more than 255 bytes, then the length
byte and the bytes. -/
def writeString (s : List Byte) : Wrote :=
  if s.length > 255 then ⟨[], some (Failure.idTooLong s)⟩
  else ⟨(s.length % 256) :: s, none⟩

/-- Source `readString(r)`: a length byte, then exactly that many bytes
(`io.ReadFull`). -/
def readString (r : Reader) : Except Failure (List Byte × Reader) :=
  match r.ReadByte with
  | (none, _) => Except.error Failure.readStringLength
  | (some length, r1) =>
    if r1.i + length ≤ r1.s.length then
      Except.ok ((r1.s.drop r1.i).take length, { r1 with i := r1.i + length })
    else Except.error Failure.readStringBytes

/-- Source `skipString(r)`: the length byte (0 if it cannot be read), then a relative
seek; neither step reports an error. -/
def skipString (r : Reader) : Reader :=
  match r.ReadByte with
  | (none, r1) => r1
  | (some length, r1) => { r1 with i := r1.i + length }

/-- Source `entry.Encode(w, parent)`: the flags byte (unchecked), the sequence, and
the three strings. -/
def LogEntry.Encode (entry : LogEntry) (parent : List Byte) : Wrote :=
  ((((Wrote.mk [entry.Flags] none).andThen (writeSequence entry.Sequence)).andThen
    (writeString entry.DocID)).andThen (writeString entry.RevID)).andThen
    (writeString parent)

/-- Source `ch.Encode(w)`: the watermark, then every entry with an empty parent id. -/
def ChangeLog.Encode (ch : ChangeLog) : Wrote :=
  ch.Entries.foldl (fun acc entry => acc.andThen (entry.Encode []))
    (writeSequence ch.Since)

/-- The decoder clearing a superseded entry: `parent.DocID = ""; parent.RevID = ""`. -/
def LogEntry.clear (e : LogEntry) : LogEntry := { e with DocID := [], RevID := [] }

/-- The decoder's `parents` map: key `docAndRev`, value the entry it points to,
as its index in `ch.Entries`. -/
abbrev Parents := List Byte × List Byte → Option Nat

/-- Assignment `parents[k] = entry` where `entry` is at index `j`. -/
def Parents.insert (m : Parents) (k : List Byte × List Byte) (j : Nat) : Parents :=
  fun q => if q = k then some j else m q

/-- Writing through the pointer held at index `j` of `ch.Entries`. -/
def clearAt (entries : List LogEntry) (j : Nat) : List LogEntry :=
  match entries[j]? with
  | some p => entries.set j p.clear
  | none => entries

/-- The supersession step of the decoder, lines 55-61. -/
def supersede (entries : List LogEntry) (parents : Parents) (docID parentID : List Byte) :
    List LogEntry :=
  if parentID ≠ [] then
    match parents (docID, parentID) with
    | some j => clearAt entries j
    | none => entries
  else entries

/-- The loop of `DecodeChangeLog`. -/
def decodeLoop : Nat → Reader → List LogEntry → Parents → Except Failure (List LogEntry)
  | 0, _, _, _ => Except.error Failure.fuel
  | fuel + 1, r, entries, parents =>
    match r.ReadByte with
    | (none, _) => Except.ok entries
    | (some b, r1) =>
      if b > 7 then Except.error Failure.badFlags
      else
        match readSequence r1 with
        | (seq, r2) =>
          match readString r2 with
          | Except.error f => Except.error f
          | Except.ok (docID, r3) =>
            match readString r3 with
            | Except.error f => Except.error f
            | Except.ok (revID, r4) =>
              match readString r4 with
              | Except.error f => Except.error f
              | Except.ok (parentID, r5) =>
                decodeLoop fuel r5
                  (supersede entries parents docID parentID ++
                    [{ Flags := b, Sequence := seq, DocID := docID, RevID := revID }])
                  (parents.insert (docID, revID) entries.length)

/-- Source `DecodeChangeLog(r)`. -/
def DecodeChangeLog (r : Reader) : Except Failure ChangeLog :=
  match readSequence r with
  | (since, r1) =>
    match decodeLoop (r.s.length + 1) r1 [] (fun _ => none) with
    | Except.error f => Except.error f
    | Except.ok entries => Except.ok { Since := since, Entries := entries }

/-- Two's-complement wrap-around of a 64-bit `int`. -/
def wrapInt (z : Int) : Int := (z + 2 ^ 63) % 2 ^ 64 - 2 ^ 63

/-- The scanning loop of `TruncateEncodedChangeLog`, lines 76-90: the position
is recorded, the sequence and the three strings are skipped, then the flags are
checked. -/
def scanLoop : Nat → Reader → List Nat → Except Failure (List Nat × Reader)
  | 0, _, _ => Except.error Failure.fuel
  | fuel + 1, r, entryPos =>
    match r.ReadByte with
    | (none, r1) => Except.ok (entryPos, r1)
    | (some flags, r1) =>
      let entryPos1 := entryPos ++ [r.i]
      let r5 := skipString (skipString (skipString (readSequence r1).2))
      if flags > 7 then
        Except.error (Failure.badFlagsAt flags (entryPos1.length - 1) r.i)
      else scanLoop fuel r5 entryPos1

/-- Outcome of `TruncateEncodedChangeLog`: the bytes written to the sink and the
returned count, or the panic. -/
structure Truncated where
  out : List Byte
  ret : Except Failure Int
  deriving DecidableEq, Repr

/-- Source `TruncateEncodedChangeLog(r, maxLength, w)`: the scan, the count of
entries to remove, the new watermark read back from the last entry removed, and
the copy of the remaining bytes. -/
def TruncateEncodedChangeLog (r : Reader) (maxLength : Int) : Truncated :=
  match scanLoop (r.s.length + 1) (readSequence r).2 [] with
  | Except.error f => ⟨[], Except.error f⟩
  | Except.ok (entryPos, r1) =>
    let remove : Int := wrapInt ((entryPos.length : Int) - maxLength)
    if remove ≤ 0 then ⟨[], Except.ok 0⟩
    else
      match entryPos[(remove - 1).toNat]? with
      | none => ⟨[], Except.error Failure.indexOutOfRange⟩
      | some p =>
        let since := (readSequence (r1.SeekTo (p + 1))).1
        match entryPos[remove.toNat]? with
        | none => ⟨(writeSequence since).out, Except.error Failure.indexOutOfRange⟩
        | some q => ⟨(writeSequence since).out ++ r1.s.drop q, Except.ok remove⟩

/-! ## Vocabulary of the specification -/

/-- An entry the format can carry: a `uint64` sequence, flags in `0..7`, ids of
at most 255 bytes. -/
def LogEntry.Valid (e : LogEntry) : Prop :=
  e.Sequence < 2 ^ 64 ∧ e.Flags ≤ 7 ∧ e.DocID.length ≤ 255 ∧ e.RevID.length ≤ 255

instance LogEntry.instDecidableValid (e : LogEntry) : Decidable e.Valid := by
  unfold LogEntry.Valid; infer_instance

/-- A valid log: a `uint64` watermark and valid entries. -/
def ChangeLog.Valid (ch : ChangeLog) : Prop :=
  ch.Since < 2 ^ 64 ∧ ∀ e ∈ ch.Entries, e.Valid

instance ChangeLog.instDecidableValid (ch : ChangeLog) : Decidable ch.Valid := by
  unfold ChangeLog.Valid; infer_instance

/-- One entry of a stream: the entry together with the parent revision id it is
encoded with. -/
structure Item where
  entry : LogEntry
  parent : List Byte
  deriving DecidableEq, Repr

/-- An item `LogEntry.Encode` accepts and the decoder reads back. -/
def Item.Valid (it : Item) : Prop := it.entry.Valid ∧ it.parent.length ≤ 255

instance Item.instDecidableValid (it : Item) : Decidable it.Valid := by
  unfold Item.Valid; infer_instance

/-- The bytes `LogEntry.Encode` writes for an item. -/
def Item.bytes (it : Item) : List Byte := (it.entry.Encode it.parent).out

/-- A well-formed stream: the watermark varint followed by the entry encodings. -/
def streamOf (since : Nat) (items : List Item) : List Byte :=
  (writeSequence since).out ++ items.flatMap Item.bytes

/-- The wire layout of one entry with an empty parent id, as the format
description gives it. -/
def wireEntry (e : LogEntry) : List Byte :=
  [e.Flags] ++ PutUvarint 9 e.Sequence ++ [e.DocID.length] ++ e.DocID ++
    [e.RevID.length] ++ e.RevID ++ [0]

/-- A live entry: not a tombstone (a tombstone has both ids empty). -/
def LogEntry.live (e : LogEntry) : Bool := !(e.DocID = [] ∧ e.RevID = [])

/-- Tombstone the most recent (last) live entry with the given ids, if any. -/
def tombstoneLast (docID revID : List Byte) : List LogEntry → List LogEntry
  | [] => []
  | x :: xs =>
    if xs.any (fun y => y.live ∧ y.DocID = docID ∧ y.RevID = revID) then
      x :: tombstoneLast docID revID xs
    else if x.live ∧ x.DocID = docID ∧ x.RevID = revID then x.clear :: xs
    else x :: xs

/-- Modelled from the spec: `ChangeLog.Update`, defined in a file that is not among
the sources.  "Applying it must find the most recent still-live entry with
matching `(docID, parentRevID)` and tombstone it (clear its `docID`/`revID`, keep
its position and sequence), then append the new entry"; an empty parent id marks
a fresh entry, which supersedes nothing. -/
def ChangeLog.Update (ch : ChangeLog) (newEntry : LogEntry) (parentRevID : List Byte) :
    ChangeLog :=
  { ch with
    Entries :=
      (if parentRevID ≠ [] then tombstoneLast newEntry.DocID parentRevID ch.Entries
       else ch.Entries) ++ [newEntry] }

/-- Modelled from the spec: `ChangeLog.TruncateTo`, defined in a file that is not
among the sources.  "Drops the oldest entries beyond `maxLength`, setting `since`
to the sequence of the last dropped entry"; returns the log and the number of
entries removed. -/
def ChangeLog.TruncateTo (ch : ChangeLog) (maxLength : Nat) : ChangeLog × Nat :=
  let remove := ch.Entries.length - maxLength
  if remove = 0 then (ch, 0)
  else
    match ch.Entries[remove - 1]? with
    | some last => ({ Since := last.Sequence, Entries := ch.Entries.drop remove }, remove)
    | none => (ch, 0)

/-- One iteration of the decoder's loop on an item already parsed: the state is
the entry list and the `parents` map. -/
def decodeStep (st : List LogEntry × Parents) (it : Item) : List LogEntry × Parents :=
  (supersede st.1 st.2 it.entry.DocID it.parent ++ [it.entry],
    st.2.insert (it.entry.DocID, it.entry.RevID) st.1.length)

/-- The byte offsets at which the items of a stream start, the first one at `i`. -/
def offsets : Nat → List Item → List Nat
  | _, [] => []
  | i, it :: rest => i :: offsets (i + it.bytes.length) rest

/-- The index of the last entry of a list whose ids are `k`, if there is one. -/
def lastIdx (k : List Byte × List Byte) : List LogEntry → Option Nat
  | [] => none
  | x :: xs =>
    match lastIdx k xs with
    | some j => some (j + 1)
    | none => if (x.DocID, x.RevID) = k then some 0 else none

/-- Replaying one item on a pair of lists: the entries as they were encoded, and
the entries as they currently are.  If the parent id is non-empty, the most
recent earlier entry that was encoded with the ids `(DocID, parent)` is cleared
(which changes nothing if it is cleared already); then the entry is appended. -/
def replayStep (st : List LogEntry × List LogEntry) (it : Item) :
    List LogEntry × List LogEntry :=
  (st.1 ++ [it.entry],
    (if it.parent ≠ [] then
      match lastIdx (it.entry.DocID, it.parent) st.1 with
      | some j => clearAt st.2 j
      | none => st.2
    else st.2) ++ [it.entry])

/-- The entry list obtained by replaying the items of a stream in order. -/
def replay (items : List Item) : List LogEntry :=
  (items.foldl replayStep ([], [])).2

/-- The entry list obtained by performing `Update` for each item of a stream in
order, from the empty log. -/
def replayUpdate (items : List Item) : List LogEntry :=
  (items.foldl (fun (ch : ChangeLog) (it : Item) => ch.Update it.entry it.parent)
    (ChangeLog.mk 0 [])).Entries

/-- The relation between the items of a stream and the entries decoded from them
that tombstoning allows: as many entries as items, each entry either the encoded
one or the encoded one cleared, and cleared only where a later item has the same
`DocID` and names its `RevID` as a non-empty parent. -/
def Resolved (its : List Item) (cur : List LogEntry) : Prop :=
  cur.length = its.length ∧
  ∀ (j : Nat) (it : Item), its[j]? = some it →
    ∃ d, cur[j]? = some d ∧
      (d = it.entry ∨
        (d = it.entry.clear ∧
          ∃ (m : Nat) (it2 : Item), j < m ∧ its[m]? = some it2 ∧
            it2.entry.DocID = it.entry.DocID ∧ it2.parent ≠ [] ∧
            it2.parent = it.entry.RevID))

/-- The number a list of base-128 groups stands for, least significant group
first: the sum of `(b i % 128) * 128 ^ i`. -/
def leb128 : List Byte → Nat
  | [] => 0
  | b :: bs => b % 128 + 128 * leb128 bs

/-! ## The data of `TestChangeLogEncoding` -/

/-- The bytes of an ASCII string literal. -/
def ascii (str : String) : List Byte := str.data.map Char.toNat

/-- The log of the test after its three `Add` calls (the first sets `Since` to
19). -/
def testLog : ChangeLog :=
  { Since := 19,
    Entries :=
      [{ Sequence := 20, DocID := ascii "some document", RevID := ascii "1-ajkljkjklj",
         Flags := 0 },
       { Sequence := 666, DocID := ascii "OtherDocument", RevID := ascii "666-fjkldfjdkfjd",
         Flags := 0 },
       { Sequence := 123456, DocID := ascii "a", RevID := ascii "5-cafebabe", Flags := 0 }] }

/-- The bytes the test asserts for the encoding of `testLog`. -/
def testData : List Byte :=
  [0x13, 0x0, 0x14, 0xd, 0x73, 0x6f, 0x6d, 0x65, 0x20, 0x64, 0x6f, 0x63, 0x75, 0x6d, 0x65,
   0x6e, 0x74, 0xc, 0x31, 0x2d, 0x61, 0x6a, 0x6b, 0x6c, 0x6a, 0x6b, 0x6a, 0x6b, 0x6c, 0x6a,
   0x0, 0x0, 0x9a, 0x5, 0xd, 0x4f, 0x74, 0x68, 0x65, 0x72, 0x44, 0x6f, 0x63, 0x75, 0x6d,
   0x65, 0x6e, 0x74, 0x10, 0x36, 0x36, 0x36, 0x2d, 0x66, 0x6a, 0x6b, 0x6c, 0x64, 0x66, 0x6a,
   0x64, 0x6b, 0x66, 0x6a, 0x64, 0x0, 0x0, 0xc0, 0xc4, 0x7, 0x1, 0x61, 0xa, 0x35, 0x2d,
   0x63, 0x61, 0x66, 0x65, 0x62, 0x61, 0x62, 0x65, 0x0]

/-- The entry the test appends, `Flags: Removed`. -/
def testNewEntry : LogEntry :=
  { Sequence := 99, DocID := ascii "some document", RevID := ascii "22-x", Flags := 2 }

/-- The parent id the test encodes `testNewEntry` with. -/
def testParent : List Byte := ascii "1-ajkljkjklj"

/-- The four items of the stream `moreData` of the test. -/
def testItems : List Item :=
  testLog.Entries.map (fun e => Item.mk e []) ++ [Item.mk testNewEntry testParent]

/-- The bytes the test asserts after truncating `moreData` to two entries. -/
def testData3 : List Byte :=
  [0x9a, 0x5, 0x0, 0xc0, 0xc4, 0x7, 0x1, 0x61, 0xa, 0x35, 0x2d, 0x63, 0x61, 0x66, 0x65,
   0x62, 0x61, 0x62, 0x65, 0x0, 0x2, 0x63, 0xd, 0x73, 0x6f, 0x6d, 0x65, 0x20, 0x64, 0x6f,
   0x63, 0x75, 0x6d, 0x65, 0x6e, 0x74, 0x4, 0x32, 0x32, 0x2d, 0x78, 0xc, 0x31, 0x2d, 0x61,
   0x6a, 0x6b, 0x6c, 0x6a, 0x6b, 0x6a, 0x6b, 0x6c, 0x6a]

/-- A stream in which two entries carry the same ids `("d", "r")` and two later
entries name `"r"` as their parent. -/
def dupItems : List Item :=
  [⟨{ Sequence := 1, DocID := ascii "d", RevID := ascii "r", Flags := 0 }, []⟩,
   ⟨{ Sequence := 2, DocID := ascii "d", RevID := ascii "r", Flags := 0 }, []⟩,
   ⟨{ Sequence := 3, DocID := ascii "d", RevID := ascii "s", Flags := 0 }, ascii "r"⟩,
   ⟨{ Sequence := 4, DocID := ascii "d", RevID := ascii "t", Flags := 0 }, ascii "r"⟩]

/-- The log of the spec's concrete scenario: the three entries of the test with
`since = 0`. -/
def scenarioLog : ChangeLog := { testLog with Since := 0 }

/-- The byte sequence the spec's concrete scenario gives, as written there. -/
def scenarioBytes : List Byte :=
  [0x13, 0x00, 0x14, 0x0D] ++ ascii "some document" ++ [0x0C] ++ ascii "1-ajkljkjklj" ++
    [0x00, 0x9A, 0x05, 0x0D] ++ ascii "OtherDocument" ++ [0x10] ++ ascii "666-fjkldfjdkfjd" ++
    [0x00, 0xC0, 0xC4, 0x07, 0x01] ++ ascii "a" ++ [0x0A] ++ ascii "5-cafebabe" ++ [0x00]

/-- An entry with a reserved flags value. -/
def flags9Entry : LogEntry := { Sequence := 1, DocID := ascii "a", RevID := ascii "b", Flags := 9 }

/-- A string of 128 two-byte characters: 256 bytes. -/
def longID : List Byte := (List.replicate 128 [0xC3, 0xA9]).flatten

/-- The test stream followed by the first 20 bytes of one more entry. -/
def cutStream : List Byte :=
  streamOf 19 testItems ++ (Item.mk testNewEntry testParent).bytes.take 20

/-! ## The reader -/

theorem drop_append_length {s : List Byte} {i : Nat} {x rest : List Byte}
    (h : s.drop i = x ++ rest) : s.drop (i + x.length) = rest := by
  rw [← List.drop_drop, h, List.drop_left]

theorem drop_cons_succ {s : List Byte} {i : Nat} {b : Byte} {rest : List Byte}
    (h : s.drop i = b :: rest) : s.drop (i + 1) = rest :=
  drop_append_length (x := [b]) h

theorem ReadByte_cons {s : List Byte} {i : Nat} {b : Byte} {rest : List Byte}
    (h : s.drop i = b :: rest) : Reader.ReadByte ⟨s, i⟩ = (some b, ⟨s, i + 1⟩) := by
  have hb : s[i]? = some b := by
    have := List.getElem?_drop s i 0
    rw [h] at this
    simpa using this.symm
  simp [Reader.ReadByte, hb]

theorem ReadByte_nil {s : List Byte} {i : Nat} (h : s.drop i = []) :
    Reader.ReadByte ⟨s, i⟩ = (none, ⟨s, i⟩) := by
  have hb : s[i]? = none := List.getElem?_eq_none (List.drop_eq_nil_iff.mp h)
  simp [Reader.ReadByte, hb]

theorem drop_length_le {s : List Byte} {i : Nat} {x rest : List Byte}
    (hi : i ≤ s.length) (h : s.drop i = x ++ rest) : i + x.length ≤ s.length := by
  have h1 : (s.drop i).length = x.length + rest.length := by rw [h, List.length_append]
  rw [List.length_drop] at h1
  omega

theorem drop_cons_lt {s : List Byte} {i : Nat} {b : Byte} {rest : List Byte}
    (h : s.drop i = b :: rest) : i + 1 ≤ s.length := by
  rcases Nat.lt_or_ge i s.length with hlt | hge
  · omega
  · rw [List.drop_eq_nil_iff.mpr hge] at h
    cases h

/-! ## Varints -/

set_option maxRecDepth 100000 in
theorem byte_or_0x80 : ∀ z < 256, (z ||| 128) &&& 127 = z % 128 ∧ 128 ≤ (z ||| 128) := by
  decide

theorem or_shiftLeft_eq_add {x b sh : Nat} (hx : x < 2 ^ sh) :
    x ||| (b <<< sh) = x + b * 2 ^ sh := by
  rw [Nat.shiftLeft_eq, Nat.lor_comm, Nat.mul_comm b, ← Nat.mul_add_lt_is_or hx b, Nat.add_comm]

theorem ReadUvarint_PutUvarint (n : Nat) (hn : n ≤ 9) :
    ∀ (y x : Nat) (s : List Byte) (i : Nat) (rest : List Byte),
      s.drop i = PutUvarint n y ++ rest →
      x < 2 ^ (7 * (9 - n)) → y < 2 ^ (64 - 7 * (9 - n)) →
      ReadUvarint (n + 1) ⟨s, i⟩ (9 - n) x (7 * (9 - n)) =
        (x + y * 2 ^ (7 * (9 - n)), ⟨s, i + (PutUvarint n y).length⟩) := by
  induction n with
  | zero =>
    intro y x s i rest h hx hy
    have hy2 : y < 2 := by simpa using hy
    have hmod : y % 256 = y := by omega
    simp only [PutUvarint, hmod, List.singleton_append] at h
    have h1 : y < 128 := by omega
    rw [ReadUvarint.eq_2, ReadByte_cons h]
    simp only [PutUvarint, List.length_singleton]
    rw [if_pos h1, if_neg (show ¬ (True ∧ y > 1) from fun h3 => by omega),
      or_shiftLeft_eq_add hx]
  | succ n ih =>
    intro y x s i rest h hx hy
    by_cases hge : y ≥ 0x80
    · simp only [PutUvarint, if_pos hge, List.cons_append] at h
      have hz := byte_or_0x80 (y % 256) (Nat.mod_lt _ (by norm_num))
      have hnot : ¬ ((y % 256 ||| 128) < 128) := by omega
      rw [ReadUvarint.eq_2, ReadByte_cons h]
      simp only []
      rw [if_neg hnot]
      have hand : (y % 256 ||| 128) &&& 127 = y % 128 := by rw [hz.1]; omega
      have hsh : 7 * (9 - (n + 1)) + 7 = 7 * (9 - n) := by omega
      have hidx : 9 - (n + 1) + 1 = 9 - n := by omega
      have hpow : 2 ^ (7 * (9 - n)) = 128 * 2 ^ (7 * (9 - (n + 1))) := by
        rw [← hsh, Nat.pow_add]; ring
      have hacc : x + y % 128 * 2 ^ (7 * (9 - (n + 1))) < 2 ^ (7 * (9 - n)) := by
        rw [hpow]
        have ht : y % 128 * 2 ^ (7 * (9 - (n + 1))) ≤ 127 * 2 ^ (7 * (9 - (n + 1))) :=
          Nat.mul_le_mul_right _ (by omega)
        omega
      have hle64 : 2 ^ (7 * (9 - n)) ≤ 2 ^ 64 :=
        Nat.pow_le_pow_right (by norm_num) (by omega)
      have hmod64 : (x + y % 128 * 2 ^ (7 * (9 - (n + 1)))) % 2 ^ 64 =
          x + y % 128 * 2 ^ (7 * (9 - (n + 1))) := Nat.mod_eq_of_lt (by omega)
      have hy7 : y >>> 7 < 2 ^ (64 - 7 * (9 - n)) := by
        rw [Nat.shiftRight_eq_div_pow]
        have h64 : 64 - 7 * (9 - (n + 1)) = (64 - 7 * (9 - n)) + 7 := by omega
        rw [h64, Nat.pow_add] at hy
        exact Nat.div_lt_of_lt_mul (by rw [Nat.mul_comm]; exact hy)
      rw [hand, or_shiftLeft_eq_add hx, hmod64, hsh, hidx]
      rw [ih (by omega) (y >>> 7) _ s (i + 1) rest (drop_cons_succ h) hacc hy7]
      simp only [PutUvarint, if_pos hge, List.length_cons]
      have hdiv : y >>> 7 = y / 128 := by rw [Nat.shiftRight_eq_div_pow]
      have hval : x + y % 128 * 2 ^ (7 * (9 - (n + 1))) + y >>> 7 * 2 ^ (7 * (9 - n)) =
          x + y * 2 ^ (7 * (9 - (n + 1))) := by
        rw [hdiv, hpow]
        calc x + y % 128 * 2 ^ (7 * (9 - (n + 1))) + y / 128 * (128 * 2 ^ (7 * (9 - (n + 1))))
            = x + (128 * (y / 128) + y % 128) * 2 ^ (7 * (9 - (n + 1))) := by ring
          _ = x + y * 2 ^ (7 * (9 - (n + 1))) := by rw [Nat.div_add_mod]
      rw [hval]
      congr 2
      omega
    · have hlt : y < 128 := by omega
      have hmod : y % 256 = y := by omega
      simp only [PutUvarint, if_neg hge, hmod, List.singleton_append] at h
      have h2 : ¬ (9 - (n + 1) = 9 ∧ y > 1) := by omega
      rw [ReadUvarint.eq_2, ReadByte_cons h]
      simp only [PutUvarint, if_neg hge, List.length_singleton]
      rw [if_pos hlt, if_neg h2, or_shiftLeft_eq_add hx]

/-- The fuel of `PutUvarint` is enough: below `2 ^ (7 * (n + 1))` more fuel than
`n` changes nothing, so nine turns serve every `uint64`. -/
theorem PutUvarint_fuel (n : Nat) :
    ∀ (x m : Nat), x < 2 ^ (7 * (n + 1)) → n ≤ m → PutUvarint m x = PutUvarint n x := by
  induction n with
  | zero =>
    intro x m hx _
    have hlt : ¬ x ≥ 0x80 := by simpa using hx
    cases m with
    | zero => rfl
    | succ m => simp only [PutUvarint, if_neg hlt]
  | succ n ih =>
    intro x m hx hm
    obtain ⟨m1, rfl⟩ : ∃ m1, m = m1 + 1 := ⟨m - 1, by omega⟩
    by_cases hge : x ≥ 0x80
    · have hx7 : x >>> 7 < 2 ^ (7 * (n + 1)) := by
        rw [Nat.shiftRight_eq_div_pow]
        have h7 : 7 * (n + 1 + 1) = 7 * (n + 1) + 7 := by omega
        rw [h7, Nat.pow_add] at hx
        exact Nat.div_lt_of_lt_mul (by rw [Nat.mul_comm]; exact hx)
      simp only [PutUvarint, if_pos hge, ih _ m1 hx7 (by omega)]
    · simp only [PutUvarint, if_neg hge]

theorem writeSequence_fuel {seq : Nat} (h : seq < 2 ^ 64) (m : Nat) (hm : 9 ≤ m) :
    PutUvarint m seq = (writeSequence seq).out :=
  PutUvarint_fuel 9 seq m (Nat.lt_of_lt_of_le h (by norm_num)) hm

/-- Reading back what `writeSequence` wrote: the value, and the reader just past
the varint. -/
theorem readSequence_writeSequence {seq : Nat} (hseq : seq < 2 ^ 64) {s : List Byte} {i : Nat}
    {rest : List Byte} (h : s.drop i = (writeSequence seq).out ++ rest) :
    readSequence ⟨s, i⟩ = (seq, ⟨s, i + (writeSequence seq).out.length⟩) := by
  have := ReadUvarint_PutUvarint 9 (le_refl _) seq 0 s i rest h (by norm_num) (by simpa using hseq)
  simpa [readSequence, writeSequence] using this

/-! ## Strings -/

theorem writeString_eq {s : List Byte} (h : s.length ≤ 255) :
    writeString s = ⟨s.length :: s, none⟩ := by
  have h1 : ¬ s.length > 255 := by omega
  have h2 : s.length % 256 = s.length := by omega
  simp only [writeString, if_neg h1, h2]

theorem readString_eq {s : List Byte} {i : Nat} {x rest : List Byte}
    (h : s.drop i = x.length :: (x ++ rest)) :
    readString ⟨s, i⟩ = Except.ok (x, ⟨s, i + 1 + x.length⟩) := by
  have h1 := drop_cons_succ h
  have h2 := drop_length_le (drop_cons_lt h) h1
  simp only [readString, ReadByte_cons h, if_pos h2, h1, List.take_left]

theorem skipString_eq {s : List Byte} {i : Nat} {x rest : List Byte}
    (h : s.drop i = x.length :: (x ++ rest)) :
    skipString ⟨s, i⟩ = ⟨s, i + 1 + x.length⟩ := by
  simp only [skipString, ReadByte_cons h]

/-! ## One entry -/

/-- The bytes of one entry whose three strings fit their length byte. -/
theorem Encode_eq (e : LogEntry) (p : List Byte) (hd : e.DocID.length ≤ 255)
    (hr : e.RevID.length ≤ 255) (hp : p.length ≤ 255) :
    e.Encode p =
      ⟨e.Flags :: (PutUvarint 9 e.Sequence ++ (e.DocID.length :: (e.DocID ++
        (e.RevID.length :: (e.RevID ++ (p.length :: p)))))), none⟩ := by
  simp [LogEntry.Encode, writeString_eq hd, writeString_eq hr, writeString_eq hp,
    writeSequence, Wrote.andThen]

theorem Item.bytes_eq {it : Item} (h : it.Valid) :
    it.bytes = it.entry.Flags :: (PutUvarint 9 it.entry.Sequence ++
      (it.entry.DocID.length :: (it.entry.DocID ++ (it.entry.RevID.length ::
        (it.entry.RevID ++ (it.parent.length :: it.parent)))))) := by
  rw [Item.bytes, Encode_eq _ _ h.1.2.2.1 h.1.2.2.2 h.2]

/-- The reader positions inside one encoded item: after the flags byte, after the
sequence, and after each of the three strings. -/
theorem item_positions {it : Item} (h : it.Valid) {s : List Byte} {i : Nat} {rest : List Byte}
    (hs : s.drop i = it.bytes ++ rest) :
    Reader.ReadByte ⟨s, i⟩ = (some it.entry.Flags, ⟨s, i + 1⟩) ∧
    readSequence ⟨s, i + 1⟩ =
      (it.entry.Sequence, ⟨s, i + 1 + (PutUvarint 9 it.entry.Sequence).length⟩) ∧
    s.drop (i + 1 + (PutUvarint 9 it.entry.Sequence).length) =
      it.entry.DocID.length :: (it.entry.DocID ++ (it.entry.RevID.length ::
        (it.entry.RevID ++ (it.parent.length :: (it.parent ++ rest))))) ∧
    s.drop (i + 1 + (PutUvarint 9 it.entry.Sequence).length + 1 + it.entry.DocID.length) =
      it.entry.RevID.length :: (it.entry.RevID ++ (it.parent.length :: (it.parent ++ rest))) ∧
    s.drop (i + 1 + (PutUvarint 9 it.entry.Sequence).length + 1 + it.entry.DocID.length + 1 +
        it.entry.RevID.length) = it.parent.length :: (it.parent ++ rest) ∧
    i + 1 + (PutUvarint 9 it.entry.Sequence).length + 1 + it.entry.DocID.length + 1 +
        it.entry.RevID.length + 1 + it.parent.length = i + it.bytes.length := by
  have hb := Item.bytes_eq h
  rw [hb] at hs
  simp only [List.cons_append, List.append_assoc] at hs
  have h1 := drop_cons_succ hs
  have h2 := drop_append_length h1
  have h3 := drop_append_length (x := it.entry.DocID.length :: it.entry.DocID) h2
  have h4 := drop_append_length (x := it.entry.RevID.length :: it.entry.RevID) h3
  refine ⟨ReadByte_cons hs, ?_, h2, ?_, ?_, ?_⟩
  · exact readSequence_writeSequence h.1.1 h1
  · rw [← h3]; congr 1; simp only [List.length_cons]; omega
  · rw [← h4]; congr 1; simp only [List.length_cons]; omega
  · rw [hb]; simp only [List.length_cons, List.length_append]; omega

theorem decodeLoop_item {it : Item} (h : it.Valid) {s : List Byte} {i : Nat} {rest : List Byte}
    (hs : s.drop i = it.bytes ++ rest) (fuel : Nat) (st : List LogEntry × Parents) :
    decodeLoop (fuel + 1) ⟨s, i⟩ st.1 st.2 =
      decodeLoop fuel ⟨s, i + it.bytes.length⟩ (decodeStep st it).1 (decodeStep st it).2 := by
  obtain ⟨p0, p1, p2, p3, p4, p5⟩ := item_positions h hs
  have hf : ¬ it.entry.Flags > 7 := by have := h.1.2.1; omega
  rw [decodeLoop, p0]
  simp only [if_neg hf, p1, readString_eq p2, readString_eq p3, readString_eq p4, p5, decodeStep]

theorem decodeLoop_items (items : List Item) :
    ∀ (s : List Byte) (i : Nat) (rest : List Byte) (fuel : Nat) (st : List LogEntry × Parents),
      (∀ it ∈ items, it.Valid) → s.drop i = items.flatMap Item.bytes ++ rest →
      decodeLoop (fuel + items.length) ⟨s, i⟩ st.1 st.2 =
        decodeLoop fuel ⟨s, i + (items.flatMap Item.bytes).length⟩
          (items.foldl decodeStep st).1 (items.foldl decodeStep st).2 := by
  induction items with
  | nil => intro s i rest fuel st _ _; simp
  | cons it items ih =>
    intro s i rest fuel st hv hs
    have hit : it.Valid := hv it (List.mem_cons_self _ _)
    have hrest : ∀ x ∈ items, x.Valid := fun x hx => hv x (List.mem_cons_of_mem _ hx)
    simp only [List.flatMap_cons, List.append_assoc] at hs
    have hs2 := drop_append_length hs
    rw [List.length_cons, ← Nat.add_assoc, decodeLoop_item hit hs,
      ih s _ rest fuel _ hrest hs2]
    simp only [List.flatMap_cons, List.length_append, List.foldl_cons, Nat.add_assoc]

/-! ## Whole streams -/

theorem Item.bytes_length_pos {it : Item} (h : it.Valid) : 1 ≤ it.bytes.length := by
  rw [Item.bytes_eq h]; simp

theorem items_length_le (items : List Item) (hv : ∀ it ∈ items, it.Valid) :
    items.length ≤ (items.flatMap Item.bytes).length := by
  induction items with
  | nil => simp
  | cons it items ih =>
    have h1 := Item.bytes_length_pos (hv it (List.mem_cons_self _ _))
    have h2 := ih (fun x hx => hv x (List.mem_cons_of_mem _ hx))
    simp only [List.flatMap_cons, List.length_append, List.length_cons]
    omega

/-- Decoding a well-formed stream followed by arbitrary bytes: the items are
consumed one by one, and the loop goes on at the first byte after them with the
state the items produced and with fuel left. -/
theorem DecodeChangeLog_items {since : Nat} (hsince : since < 2 ^ 64) (items : List Item)
    (hv : ∀ it ∈ items, it.Valid) (tail : List Byte) :
    ∃ fuel : Nat,
      DecodeChangeLog (NewReader (streamOf since items ++ tail)) =
        match decodeLoop (fuel + 1)
            ⟨streamOf since items ++ tail, (streamOf since items).length⟩
            (items.foldl decodeStep ([], fun _ => none)).1
            (items.foldl decodeStep ([], fun _ => none)).2 with
        | Except.error f => Except.error f
        | Except.ok entries => Except.ok { Since := since, Entries := entries } := by
  have hle := items_length_le items hv
  refine ⟨(streamOf since items ++ tail).length - items.length, ?_⟩
  have h0 : (streamOf since items ++ tail).drop 0 =
      (writeSequence since).out ++ (items.flatMap Item.bytes ++ tail) := by
    simp [streamOf]
  have h1 := drop_append_length h0
  have hfuel : (streamOf since items ++ tail).length + 1 =
      ((streamOf since items ++ tail).length - items.length + 1) + items.length := by
    have : items.length ≤ (streamOf since items ++ tail).length := by
      simp only [streamOf, List.length_append]; omega
    omega
  have hpos : 0 + (writeSequence since).out.length + (items.flatMap Item.bytes).length =
      (streamOf since items).length := by
    simp only [streamOf, List.length_append]; omega
  simp only [DecodeChangeLog, NewReader, readSequence_writeSequence hsince h0]
  rw [hfuel, decodeLoop_items items _ _ tail _ ([], fun _ => none) hv h1, hpos]

theorem drop_stream (since : Nat) (items : List Item) (tail : List Byte) :
    (streamOf since items ++ tail).drop (streamOf since items).length = tail :=
  List.drop_left _ _

theorem decodeLoop_eof {s : List Byte} {i : Nat} (h : s.drop i = []) (fuel : Nat)
    (entries : List LogEntry) (parents : Parents) :
    decodeLoop (fuel + 1) ⟨s, i⟩ entries parents = Except.ok entries := by
  rw [decodeLoop, ReadByte_nil h]

/-- Decoding a well-formed stream succeeds, with the entries the loop state holds
after the last item. -/
theorem DecodeChangeLog_streamOf {since : Nat} (hsince : since < 2 ^ 64) (items : List Item)
    (hv : ∀ it ∈ items, it.Valid) :
    DecodeChangeLog (NewReader (streamOf since items)) =
      Except.ok { Since := since,
                  Entries := (items.foldl decodeStep ([], fun _ => none)).1 } := by
  obtain ⟨fuel, h⟩ := DecodeChangeLog_items hsince items hv []
  have hd := drop_stream since items []
  rw [decodeLoop_eof hd] at h
  simpa using h

/-! ## Whole-log encodings -/

theorem supersede_nil (entries : List LogEntry) (parents : Parents) (d : List Byte) :
    supersede entries parents d [] = entries := by
  simp [supersede]

theorem foldl_decodeStep_fresh (es : List LogEntry) :
    ∀ st : List LogEntry × Parents,
      ((es.map (fun e => Item.mk e [])).foldl decodeStep st).1 = st.1 ++ es := by
  induction es with
  | nil => intro st; simp
  | cons e es ih =>
    intro st
    simp only [List.map_cons, List.foldl_cons, ih, decodeStep, supersede_nil,
      List.append_assoc, List.singleton_append]

theorem foldl_Encode (es : List LogEntry) (hv : ∀ e ∈ es, e.Valid) :
    ∀ pre : List Byte,
      es.foldl (fun acc entry => Wrote.andThen acc (entry.Encode [])) ⟨pre, none⟩ =
        ⟨pre ++ (es.map (fun e => Item.mk e [])).flatMap Item.bytes, none⟩ := by
  induction es with
  | nil => intro pre; simp
  | cons e es ih =>
    intro pre
    have he := hv e (List.mem_cons_self _ _)
    have hq := Encode_eq e [] he.2.2.1 he.2.2.2 (by simp)
    rw [List.foldl_cons]
    have hstep : Wrote.andThen ⟨pre, none⟩ (e.Encode []) = ⟨pre ++ (e.Encode []).out, none⟩ := by
      rw [hq]; rfl
    rw [hstep, ih (fun x hx => hv x (List.mem_cons_of_mem _ hx))]
    simp [Item.bytes]

/-- The whole-log encoding is the stream of its entries, each with an empty
parent id, and the encoder does not panic. -/
theorem Encode_eq_streamOf (ch : ChangeLog) (hv : ch.Valid) :
    ch.Encode = ⟨streamOf ch.Since (ch.Entries.map (fun e => Item.mk e [])), none⟩ := by
  rw [ChangeLog.Encode, writeSequence, foldl_Encode _ hv.2]
  rfl

theorem fresh_items_valid (es : List LogEntry) (hv : ∀ e ∈ es, e.Valid) :
    ∀ it ∈ es.map (fun e => Item.mk e []), it.Valid := by
  intro it hit
  obtain ⟨e, he, rfl⟩ := List.mem_map.mp hit
  exact ⟨hv e he, by simp⟩

theorem decode_encode_valid (ch : ChangeLog) (hv : ch.Valid) :
    ch.Encode.panic = none ∧ DecodeChangeLog (NewReader ch.Encode.out) = Except.ok ch := by
  rw [Encode_eq_streamOf ch hv]
  refine ⟨rfl, ?_⟩
  rw [DecodeChangeLog_streamOf hv.1 _ (fresh_items_valid _ hv.2), foldl_decodeStep_fresh]
  simp

/-- C1. Round trip: for every valid log the encoder does not panic, and decoding
the bytes it wrote succeeds and returns the log itself: the same `Since` and the
same entries, element by element, tombstones included. -/
theorem DecodeChangeLog_Encode (ch : ChangeLog) (hv : ch.Valid) :
    ch.Encode.panic = none ∧ DecodeChangeLog (NewReader ch.Encode.out) = Except.ok ch :=
  decode_encode_valid ch hv

/-- The round trip on the log of `TestChangeLogEncoding`. -/
theorem DecodeChangeLog_Encode_witness :
    testLog.Valid ∧ testLog.Encode.panic = none ∧
      DecodeChangeLog (NewReader testLog.Encode.out) = Except.ok testLog :=
  ⟨by decide, DecodeChangeLog_Encode testLog (by decide)⟩

theorem wireEntry_eq_bytes {e : LogEntry} (h : e.Valid) : Item.bytes ⟨e, []⟩ = wireEntry e := by
  rw [Item.bytes_eq ⟨h, by simp⟩]
  simp [wireEntry]

theorem flatMap_fresh_bytes (es : List LogEntry) (hv : ∀ e ∈ es, e.Valid) :
    (es.map (fun e => Item.mk e [])).flatMap Item.bytes = es.flatMap wireEntry := by
  induction es with
  | nil => rfl
  | cons e es ih =>
    simp only [List.map_cons, List.flatMap_cons,
      wireEntry_eq_bytes (hv e (List.mem_cons_self _ _)),
      ih (fun x hx => hv x (List.mem_cons_of_mem _ hx))]

/-- C5. Wire format of a whole-log encoding: for every valid log the encoder
writes the varint of `Since` and then, for each entry in order, the flags byte,
the varint of the sequence, the length-prefixed `DocID`, the length-prefixed
`RevID` and a zero byte for the empty parent id, and nothing else; it does not
panic. -/
theorem Encode_wire_format (ch : ChangeLog) (hv : ch.Valid) :
    ch.Encode = ⟨PutUvarint 9 ch.Since ++ ch.Entries.flatMap wireEntry, none⟩ := by
  rw [Encode_eq_streamOf ch hv, streamOf, flatMap_fresh_bytes _ hv.2]
  rfl

/-- The wire format on the log of `TestChangeLogEncoding`: the 84 bytes the test
asserts, starting `13 00 14 0D`. -/
theorem Encode_wire_format_witness :
    testLog.Valid ∧ testLog.Encode = ⟨testData, none⟩ ∧ testData.length = 84 ∧
      testData.take 4 = [0x13, 0x00, 0x14, 0x0D] :=
  ⟨by decide, (Encode_wire_format testLog (by decide)).trans (by decide), by decide, by decide⟩

/-! ## The scan of the truncator -/

theorem scanLoop_item {it : Item} (h : it.Valid) {s : List Byte} {i : Nat} {rest : List Byte}
    (hs : s.drop i = it.bytes ++ rest) (fuel : Nat) (entryPos : List Nat) :
    scanLoop (fuel + 1) ⟨s, i⟩ entryPos =
      scanLoop fuel ⟨s, i + it.bytes.length⟩ (entryPos ++ [i]) := by
  obtain ⟨p0, p1, p2, p3, p4, p5⟩ := item_positions h hs
  have hf : ¬ it.entry.Flags > 7 := by have := h.1.2.1; omega
  rw [scanLoop, p0]
  simp only [if_neg hf, p1, skipString_eq p2, skipString_eq p3, skipString_eq p4, p5]

theorem scanLoop_items (items : List Item) :
    ∀ (s : List Byte) (i : Nat) (rest : List Byte) (fuel : Nat) (entryPos : List Nat),
      (∀ it ∈ items, it.Valid) → s.drop i = items.flatMap Item.bytes ++ rest →
      scanLoop (fuel + items.length) ⟨s, i⟩ entryPos =
        scanLoop fuel ⟨s, i + (items.flatMap Item.bytes).length⟩
          (entryPos ++ offsets i items) := by
  induction items with
  | nil => intro s i rest fuel entryPos _ _; simp [offsets]
  | cons it items ih =>
    intro s i rest fuel entryPos hv hs
    have hit : it.Valid := hv it (List.mem_cons_self _ _)
    have hrest : ∀ x ∈ items, x.Valid := fun x hx => hv x (List.mem_cons_of_mem _ hx)
    simp only [List.flatMap_cons, List.append_assoc] at hs
    have hs2 := drop_append_length hs
    rw [List.length_cons, ← Nat.add_assoc, scanLoop_item hit hs,
      ih s _ rest fuel _ hrest hs2]
    simp only [List.flatMap_cons, List.length_append, offsets, Nat.add_assoc,
      List.append_assoc, List.singleton_append]

/-- The scan of a well-formed stream followed by arbitrary bytes: after the
items, the loop goes on at the first byte after them, with their offsets
collected and with fuel left. -/
theorem scan_items {since : Nat} (hsince : since < 2 ^ 64) (items : List Item)
    (hv : ∀ it ∈ items, it.Valid) (tail : List Byte) :
    ∃ fuel : Nat,
      scanLoop ((NewReader (streamOf since items ++ tail)).s.length + 1)
          (readSequence (NewReader (streamOf since items ++ tail))).2 [] =
        scanLoop (fuel + 1) ⟨streamOf since items ++ tail, (streamOf since items).length⟩
          (offsets (writeSequence since).out.length items) := by
  have hle := items_length_le items hv
  refine ⟨(streamOf since items ++ tail).length - items.length, ?_⟩
  have h0 : (streamOf since items ++ tail).drop 0 =
      (writeSequence since).out ++ (items.flatMap Item.bytes ++ tail) := by
    simp [streamOf]
  have h1 := drop_append_length h0
  have hfuel : (streamOf since items ++ tail).length + 1 =
      ((streamOf since items ++ tail).length - items.length + 1) + items.length := by
    have : items.length ≤ (streamOf since items ++ tail).length := by
      simp only [streamOf, List.length_append]; omega
    omega
  have hpos : 0 + (writeSequence since).out.length + (items.flatMap Item.bytes).length =
      (streamOf since items).length := by
    simp only [streamOf, List.length_append]; omega
  simp only [NewReader, readSequence_writeSequence hsince h0]
  rw [hfuel, scanLoop_items items _ _ tail _ [] hv h1, hpos]
  simp

theorem offsets_length (items : List Item) : ∀ i, (offsets i items).length = items.length := by
  induction items with
  | nil => intro i; rfl
  | cons it items ih => intro i; simp [offsets, ih]

theorem scanLoop_eof {s : List Byte} {i : Nat} (h : s.drop i = []) (fuel : Nat)
    (entryPos : List Nat) :
    scanLoop (fuel + 1) ⟨s, i⟩ entryPos = Except.ok (entryPos, ⟨s, i⟩) := by
  rw [scanLoop, ReadByte_nil h]

/-- The scan of a well-formed stream ends at its end with the offsets of all its
items. -/
theorem scan_streamOf {since : Nat} (hsince : since < 2 ^ 64) (items : List Item)
    (hv : ∀ it ∈ items, it.Valid) :
    scanLoop ((NewReader (streamOf since items)).s.length + 1)
        (readSequence (NewReader (streamOf since items))).2 [] =
      Except.ok (offsets (writeSequence since).out.length items,
        ⟨streamOf since items, (streamOf since items).length⟩) := by
  obtain ⟨fuel, h⟩ := scan_items hsince items hv []
  have hd := drop_stream since items []
  rw [scanLoop_eof hd] at h
  simpa using h

theorem wrapInt_eq {z : Int} (h1 : -(2 ^ 63) ≤ z) (h2 : z < 2 ^ 63) : wrapInt z = z := by
  simp only [wrapInt]
  omega

/-- C6. No-op truncation: for every valid log and every `maxLength` (an `int`)
that is at least the number of entries, the truncator applied to the encoding of
the log returns 0 and writes nothing to the sink. -/
theorem TruncateEncodedChangeLog_noop (ch : ChangeLog) (hv : ch.Valid) (maxLength : Int)
    (hint : maxLength < 2 ^ 63) (hmax : (ch.Entries.length : Int) ≤ maxLength) :
    TruncateEncodedChangeLog (NewReader ch.Encode.out) maxLength = ⟨[], Except.ok 0⟩ := by
  rw [Encode_eq_streamOf ch hv]
  simp only [TruncateEncodedChangeLog,
    scan_streamOf hv.1 _ (fresh_items_valid _ hv.2), offsets_length, List.length_map]
  have hw : wrapInt ((ch.Entries.length : Int) - maxLength) =
      (ch.Entries.length : Int) - maxLength := wrapInt_eq (by omega) (by omega)
  rw [hw, if_pos (by omega)]

/-- The no-op truncation of the three-entry log of the test to three entries. -/
theorem TruncateEncodedChangeLog_noop_witness :
    testLog.Valid ∧ (3 : Int) < 2 ^ 63 ∧ (testLog.Entries.length : Int) ≤ 3 ∧
      TruncateEncodedChangeLog (NewReader testLog.Encode.out) 3 = ⟨[], Except.ok 0⟩ :=
  ⟨by decide, by decide, by decide,
    TruncateEncodedChangeLog_noop testLog (by decide) 3 (by decide) (by decide)⟩

/-! ## Invalid flags -/

/-- C8. Invalid flags are detected by the decoder: on a since varint, zero or more
well-formed entries, then a byte greater than 7 where a flags byte is due, then
any bytes, `DecodeChangeLog` panics with "bad flags" and returns no log. -/
theorem DecodeChangeLog_bad_flags {since : Nat} (hsince : since < 2 ^ 64) (items : List Item)
    (hv : ∀ it ∈ items, it.Valid) (b : Byte) (hb : b > 7) (tail : List Byte) :
    DecodeChangeLog (NewReader (streamOf since items ++ b :: tail)) =
      Except.error Failure.badFlags := by
  obtain ⟨fuel, h⟩ := DecodeChangeLog_items hsince items hv (b :: tail)
  have hd := drop_stream since items (b :: tail)
  rw [h, decodeLoop, ReadByte_cons hd]
  simp only [if_pos hb]

/-- Invalid flags after the four entries of the test stream, and as the first
flags byte of a stream. -/
theorem DecodeChangeLog_bad_flags_witness :
    (19 : Nat) < 2 ^ 64 ∧ (∀ it ∈ testItems, it.Valid) ∧ (9 : Byte) > 7 ∧
      DecodeChangeLog (NewReader (streamOf 19 testItems ++ 9 :: [1, 2, 3])) =
        Except.error Failure.badFlags ∧
      DecodeChangeLog (NewReader (streamOf 0 [] ++ 9 :: [])) = Except.error Failure.badFlags :=
  ⟨by decide, by decide, by decide,
    DecodeChangeLog_bad_flags (by decide) testItems (by decide) 9 (by decide) [1, 2, 3],
    DecodeChangeLog_bad_flags (by decide) [] (by decide) 9 (by decide) []⟩

/-- C9. Invalid flags are detected by the wire truncator: on a since varint, zero
or more well-formed entries, then a byte greater than 7 where a flags byte is
due, then any bytes (possibly none), `TruncateEncodedChangeLog` panics with the
bad-flags message (the byte, the index of the entry and its offset) for every
`maxLength`, and nothing is written to the sink. -/
theorem TruncateEncodedChangeLog_bad_flags {since : Nat} (hsince : since < 2 ^ 64)
    (items : List Item) (hv : ∀ it ∈ items, it.Valid) (b : Byte) (hb : b > 7)
    (tail : List Byte) (maxLength : Int) :
    TruncateEncodedChangeLog (NewReader (streamOf since items ++ b :: tail)) maxLength =
      ⟨[], Except.error
        (Failure.badFlagsAt b items.length (streamOf since items).length)⟩ := by
  obtain ⟨fuel, h⟩ := scan_items hsince items hv (b :: tail)
  have hd := drop_stream since items (b :: tail)
  rw [TruncateEncodedChangeLog, h, scanLoop, ReadByte_cons hd]
  simp only [if_pos hb, List.length_append, offsets_length, List.length_singleton,
    Nat.add_sub_cancel]

/-- Invalid flags after the four entries of the test stream, with a `maxLength`
that would need no truncation. -/
theorem TruncateEncodedChangeLog_bad_flags_witness :
    (19 : Nat) < 2 ^ 64 ∧ (∀ it ∈ testItems, it.Valid) ∧ (9 : Byte) > 7 ∧
      TruncateEncodedChangeLog (NewReader (streamOf 19 testItems ++ 9 :: [])) 100 =
        ⟨[], Except.error (Failure.badFlagsAt 9 4 (streamOf 19 testItems).length)⟩ :=
  ⟨by decide, by decide, by decide,
    TruncateEncodedChangeLog_bad_flags (by decide) testItems (by decide) 9 (by decide) [] 100⟩

/-! ## Supersession: the map of the decoder against a search in the list -/

theorem clearAt_length (es : List LogEntry) (j : Nat) : (clearAt es j).length = es.length := by
  unfold clearAt
  split <;> simp

theorem lastIdx_concat (k : List Byte × List Byte) (e : LogEntry) (l : List LogEntry) :
    lastIdx k (l ++ [e]) = if (e.DocID, e.RevID) = k then some l.length else lastIdx k l := by
  induction l with
  | nil => simp [lastIdx]
  | cons x xs ih =>
    rw [List.cons_append, lastIdx, ih, List.length_cons]
    by_cases h : (e.DocID, e.RevID) = k
    · simp [h]
    · simp [h, lastIdx]

theorem lastIdx_lt {k : List Byte × List Byte} {l : List LogEntry} {j : Nat}
    (h : lastIdx k l = some j) : j < l.length := by
  induction l generalizing j with
  | nil => simp [lastIdx] at h
  | cons x xs ih =>
    simp only [lastIdx] at h
    cases hx : lastIdx k xs with
    | some m =>
      rw [hx] at h
      have := ih hx
      simp only [Option.some.injEq] at h
      simp only [List.length_cons]
      omega
    | none =>
      rw [hx] at h
      by_cases hk : (x.DocID, x.RevID) = k
      · simp only [hk, if_true, Option.some.injEq] at h
        simp only [List.length_cons]
        omega
      · simp [hk] at h

/-- The state of the decoder and the state of the replay agree item by item: the
`parents` map is the last-index search in the entries as encoded. -/
theorem foldl_decodeStep_eq_replayStep (items : List Item) :
    ∀ (st : List LogEntry × Parents) (rs : List LogEntry × List LogEntry),
      st.1 = rs.2 → (∀ k, st.2 k = lastIdx k rs.1) → rs.1.length = rs.2.length →
      (items.foldl decodeStep st).1 = (items.foldl replayStep rs).2 := by
  induction items with
  | nil => intro st rs h1 _ _; simpa using h1
  | cons it items ih =>
    intro st rs h1 h2 h3
    rw [List.foldl_cons, List.foldl_cons]
    apply ih
    · simp only [decodeStep, replayStep, supersede, h1, h2]
    · intro k
      simp only [decodeStep, replayStep, Parents.insert, lastIdx_concat, h1, h2, h3]
      by_cases hk : k = (it.entry.DocID, it.entry.RevID)
      · simp [hk]
      · have hk2 : ¬ (it.entry.DocID, it.entry.RevID) = k := fun h => hk h.symm
        simp [hk, hk2]
    · simp only [replayStep, List.length_append, List.length_singleton, h3]
      split
      · split <;> simp [clearAt_length]
      · rfl

theorem foldl_decodeStep_eq_replay (items : List Item) :
    (items.foldl decodeStep ([], fun _ => none)).1 = replay items :=
  foldl_decodeStep_eq_replayStep items _ ([], []) rfl (fun _ => rfl) rfl

/-- Decoding a well-formed stream: it succeeds with the replay of its items. -/
theorem DecodeChangeLog_streamOf_replay {since : Nat} (hsince : since < 2 ^ 64)
    (items : List Item) (hv : ∀ it ∈ items, it.Valid) :
    DecodeChangeLog (NewReader (streamOf since items)) =
      Except.ok { Since := since, Entries := replay items } := by
  rw [DecodeChangeLog_streamOf hsince items hv, foldl_decodeStep_eq_replay]

/-- C7, as stated, fails: in the stream `dupItems` the decoder leaves the first
entry live, because its map still points at the second entry, already cleared,
when the fourth entry names the same parent; replaying `Update` tombstones the
first entry, the most recent one still live. -/
theorem DecodeChangeLog_ne_replayUpdate :
    (∀ it ∈ dupItems, it.Valid) ∧
      DecodeChangeLog (NewReader (streamOf 0 dupItems)) =
        Except.ok { Since := 0, Entries :=
          [{ Sequence := 1, DocID := ascii "d", RevID := ascii "r", Flags := 0 },
           { Sequence := 2, DocID := [], RevID := [], Flags := 0 },
           { Sequence := 3, DocID := ascii "d", RevID := ascii "s", Flags := 0 },
           { Sequence := 4, DocID := ascii "d", RevID := ascii "t", Flags := 0 }] } ∧
      replayUpdate dupItems =
          [{ Sequence := 1, DocID := [], RevID := [], Flags := 0 },
           { Sequence := 2, DocID := [], RevID := [], Flags := 0 },
           { Sequence := 3, DocID := ascii "d", RevID := ascii "s", Flags := 0 },
           { Sequence := 4, DocID := ascii "d", RevID := ascii "t", Flags := 0 }] ∧
      DecodeChangeLog (NewReader (streamOf 0 dupItems)) ≠
        Except.ok { Since := 0, Entries := replayUpdate dupItems } := by
  refine ⟨by decide, by decide, by decide, by decide⟩

/-- C7, amended. Decoding is a replay: for every well-formed stream
`DecodeChangeLog` succeeds, returns the `Since` of the stream, and returns the
entry list obtained from the empty list by, for each encoded entry in stream
order, clearing (if the parent id is non-empty) the most recent earlier entry
that was encoded with the ids `(DocID, parent id)`, whether or not it is still
live, and then appending the entry. -/
theorem DecodeChangeLog_replay {since : Nat} (hsince : since < 2 ^ 64) (items : List Item)
    (hv : ∀ it ∈ items, it.Valid) :
    DecodeChangeLog (NewReader (streamOf since items)) =
      Except.ok { Since := since, Entries := replay items } :=
  DecodeChangeLog_streamOf_replay hsince items hv

/-- The replay of the four-entry stream of the test: the first entry is cleared by
the appended one. -/
theorem DecodeChangeLog_replay_witness :
    (19 : Nat) < 2 ^ 64 ∧ (∀ it ∈ testItems, it.Valid) ∧
      DecodeChangeLog (NewReader (streamOf 19 testItems)) =
        Except.ok { Since := 19, Entries := replay testItems } ∧
      replay testItems =
        [{ Sequence := 20, DocID := [], RevID := [], Flags := 0 },
         { Sequence := 666, DocID := ascii "OtherDocument", RevID := ascii "666-fjkldfjdkfjd",
           Flags := 0 },
         { Sequence := 123456, DocID := ascii "a", RevID := ascii "5-cafebabe", Flags := 0 },
         testNewEntry] :=
  ⟨by decide, by decide, DecodeChangeLog_replay (by decide) testItems (by decide), by decide⟩

/-! ## Incremental append -/

theorem clearAt_cons_zero (x : LogEntry) (xs : List LogEntry) :
    clearAt (x :: xs) 0 = x.clear :: xs := by
  simp [clearAt]

theorem clearAt_cons_succ (x : LogEntry) (xs : List LogEntry) (j : Nat) :
    clearAt (x :: xs) (j + 1) = x :: clearAt xs j := by
  simp only [clearAt, List.getElem?_cons_succ]
  split <;> simp

theorem any_live_eq_lastIdx {d p : List Byte} (hp : p ≠ []) (xs : List LogEntry) :
    xs.any (fun y => y.live ∧ y.DocID = d ∧ y.RevID = p) = (lastIdx (d, p) xs).isSome := by
  induction xs with
  | nil => rfl
  | cons x xs ih =>
    rw [List.any_cons, ih, lastIdx]
    cases hx : lastIdx (d, p) xs with
    | some j => simp
    | none =>
      by_cases hk : x.DocID = d ∧ x.RevID = p
      · have hl : x.live = true := by simp [LogEntry.live, hk.2, hp]
        simp [hk.1, hk.2, hl]
      · have hk2 : ¬ (x.DocID, x.RevID) = (d, p) := by
          intro h; exact hk ⟨congrArg Prod.fst h, congrArg Prod.snd h⟩
        have hk3 : ¬ (x.live = true ∧ x.DocID = d ∧ x.RevID = p) := fun h => hk h.2
        simp [hk2, hk3]

/-- With a non-empty revision id, tombstoning the last live entry with given ids
is clearing the entry at the last index with these ids. -/
theorem tombstoneLast_eq {d p : List Byte} (hp : p ≠ []) (es : List LogEntry) :
    tombstoneLast d p es =
      match lastIdx (d, p) es with
      | some j => clearAt es j
      | none => es := by
  induction es with
  | nil => rfl
  | cons x xs ih =>
    rw [tombstoneLast, any_live_eq_lastIdx hp, lastIdx]
    cases hx : lastIdx (d, p) xs with
    | some j =>
      rw [hx] at ih
      simp only [Option.isSome_some, if_true, ih, clearAt_cons_succ]
    | none =>
      simp only [Option.isSome_none, Bool.false_eq_true, if_false]
      by_cases hk : x.DocID = d ∧ x.RevID = p
      · have hl : x.live = true := by simp [LogEntry.live, hk.2, hp]
        simp [hk.1, hk.2, hl, clearAt_cons_zero]
      · have hk2 : ¬ (x.DocID, x.RevID) = (d, p) := by
          intro h; exact hk ⟨congrArg Prod.fst h, congrArg Prod.snd h⟩
        have hk3 : ¬ (x.live = true ∧ x.DocID = d ∧ x.RevID = p) := fun h => hk h.2
        simp [hk2, hk3]

theorem foldl_replayStep_fresh (es : List LogEntry) :
    ∀ st : List LogEntry × List LogEntry,
      (es.map (fun e => Item.mk e [])).foldl replayStep st = (st.1 ++ es, st.2 ++ es) := by
  induction es with
  | nil => intro st; simp
  | cons e es ih =>
    intro st
    simp [List.foldl_cons, ih, replayStep]

/-- Replaying a whole-log encoding followed by one more item performs the
`Update` on the log. -/
theorem replay_fresh_concat (ch : ChangeLog) (e : LogEntry) (p : List Byte) :
    replay (ch.Entries.map (fun e => Item.mk e []) ++ [Item.mk e p]) =
      (ch.Update e p).Entries := by
  rw [replay, List.foldl_append, foldl_replayStep_fresh]
  simp only [List.foldl_cons, List.foldl_nil, replayStep, List.nil_append, ChangeLog.Update]
  by_cases hp : p = []
  · simp [hp]
  · simp only [ne_eq, hp, not_false_eq_true, if_true, tombstoneLast_eq hp]

theorem clear_valid {e : LogEntry} (h : e.Valid) : e.clear.Valid :=
  ⟨h.1, h.2.1, by simp [LogEntry.clear], by simp [LogEntry.clear]⟩

theorem clearAt_valid {es : List LogEntry} (hv : ∀ e ∈ es, e.Valid) (j : Nat) :
    ∀ e ∈ clearAt es j, e.Valid := by
  intro e he
  unfold clearAt at he
  split at he
  · rename_i q hq
    rcases List.mem_or_eq_of_mem_set he with h | h
    · exact hv e h
    · rw [h]
      exact clear_valid (hv q (List.getElem?_mem hq))
  · exact hv e he

theorem Update_valid {ch : ChangeLog} (hv : ch.Valid) {e : LogEntry} (he : e.Valid)
    (p : List Byte) : (ch.Update e p).Valid := by
  refine ⟨hv.1, ?_⟩
  intro x hx
  simp only [ChangeLog.Update, List.mem_append, List.mem_singleton] at hx
  rcases hx with hx | hx
  · by_cases hp : p = []
    · simp only [hp, ne_eq, not_true_eq_false, if_false] at hx
      exact hv.2 x hx
    · simp only [ne_eq, hp, not_false_eq_true, if_true, tombstoneLast_eq hp] at hx
      split at hx
      · exact clearAt_valid hv.2 _ x hx
      · exact hv.2 x hx
  · rw [hx]; exact he

/-- C3. Incremental append equivalence: for every valid log, every valid entry
`e` and every parent id `p` of at most 255 bytes, decoding the encoding of the
log followed by the encoding of `e` with parent `p` succeeds and returns the log
after `Update(e, p)`: `Since` unchanged, the most recent live entry with the ids
`(e.DocID, p)` cleared if `p` is non-empty, every other entry unchanged, and `e`
appended; decoding the whole-log encoding of the updated log returns the same. -/
theorem DecodeChangeLog_append (ch : ChangeLog) (hv : ch.Valid) (e : LogEntry) (he : e.Valid)
    (p : List Byte) (hp : p.length ≤ 255) :
    DecodeChangeLog (NewReader (ch.Encode.out ++ (e.Encode p).out)) =
        Except.ok (ch.Update e p) ∧
      (ch.Update e p).Since = ch.Since ∧
      DecodeChangeLog (NewReader (ch.Update e p).Encode.out) = Except.ok (ch.Update e p) := by
  refine ⟨?_, rfl, (decode_encode_valid _ (Update_valid hv he p)).2⟩
  have hs : ch.Encode.out ++ (e.Encode p).out =
      streamOf ch.Since (ch.Entries.map (fun e => Item.mk e []) ++ [Item.mk e p]) := by
    rw [Encode_eq_streamOf ch hv]
    simp [streamOf, Item.bytes, List.flatMap_append]
  have hvi : ∀ it ∈ ch.Entries.map (fun e => Item.mk e []) ++ [Item.mk e p], it.Valid := by
    intro it hit
    rcases List.mem_append.mp hit with h | h
    · exact fresh_items_valid _ hv.2 it h
    · rw [List.mem_singleton.mp h]; exact ⟨he, hp⟩
  rw [hs, DecodeChangeLog_streamOf_replay hv.1 _ hvi, replay_fresh_concat]
  rfl

/-- The append of the test: `testNewEntry` with parent `"1-ajkljkjklj"` after the
encoding of the three-entry log. -/
theorem DecodeChangeLog_append_witness :
    testLog.Valid ∧ testNewEntry.Valid ∧ testParent.length ≤ 255 ∧
      DecodeChangeLog (NewReader (testLog.Encode.out ++ (testNewEntry.Encode testParent).out)) =
        Except.ok (testLog.Update testNewEntry testParent) ∧
      (testLog.Update testNewEntry testParent).Since = testLog.Since ∧
      DecodeChangeLog (NewReader (testLog.Update testNewEntry testParent).Encode.out) =
        Except.ok (testLog.Update testNewEntry testParent) :=
  ⟨by decide, by decide, by decide,
    DecodeChangeLog_append testLog (by decide) testNewEntry (by decide) testParent (by decide)⟩

/-! ## Truncation on the wire -/

theorem lastIdx_append (k : List Byte × List Byte) (a b : List LogEntry) :
    lastIdx k (a ++ b) =
      match lastIdx k b with
      | some j => some (a.length + j)
      | none => lastIdx k a := by
  induction a with
  | nil => cases h : lastIdx k b <;> simp [h, lastIdx]
  | cons x xs ih =>
    rw [List.cons_append, lastIdx, ih]
    cases h : lastIdx k b with
    | some j => simp only [List.length_cons]; congr 1; omega
    | none => simp only [lastIdx]

theorem clearAt_append_left {a : List LogEntry} {j : Nat} (h : j < a.length)
    (b : List LogEntry) : clearAt (a ++ b) j = clearAt a j ++ b := by
  simp only [clearAt, List.getElem?_append_left h]
  cases hx : a[j]? with
  | some q => simp only [List.set_append_left _ _ h]
  | none => rfl

theorem clearAt_append_right (a b : List LogEntry) (j : Nat) :
    clearAt (a ++ b) (a.length + j) = a ++ clearAt b j := by
  have h1 : (a ++ b)[a.length + j]? = b[j]? := by
    rw [List.getElem?_append_right (by omega)]
    congr 1
    omega
  simp only [clearAt, h1]
  cases hx : b[j]? with
  | some q =>
    simp only []
    rw [List.set_append_right _ _ (by omega)]
    congr 2
    omega
  | none => rfl

/-- Replaying items behind a longer history: the history may lose ids, the part
that the shorter history shares is replayed identically. -/
theorem foldl_replayStep_append (items : List Item) (a : List LogEntry) :
    ∀ (o c a2 : List LogEntry), a.length = a2.length →
      ∃ a3 : List LogEntry, a3.length = a.length ∧
        items.foldl replayStep (a ++ o, a2 ++ c) =
          (a ++ (items.foldl replayStep (o, c)).1, a3 ++ (items.foldl replayStep (o, c)).2) := by
  induction items with
  | nil => intro o c a2 h; exact ⟨a2, h.symm, rfl⟩
  | cons it items ih =>
    intro o c a2 h
    have hstep : ∃ a4 : List LogEntry, a.length = a4.length ∧
        replayStep (a ++ o, a2 ++ c) it =
          (a ++ (replayStep (o, c) it).1, a4 ++ (replayStep (o, c) it).2) := by
      simp only [replayStep]
      by_cases hp : it.parent = []
      · exact ⟨a2, h, by simp [hp]⟩
      · simp only [ne_eq, hp, not_false_eq_true, if_true, lastIdx_append]
        cases ho : lastIdx (it.entry.DocID, it.parent) o with
        | some j =>
          refine ⟨a2, h, ?_⟩
          simp only [h, clearAt_append_right, List.append_assoc]
        | none =>
          cases ha : lastIdx (it.entry.DocID, it.parent) a with
          | some j =>
            have hj : j < a2.length := h ▸ lastIdx_lt ha
            refine ⟨clearAt a2 j, by rw [clearAt_length, h], ?_⟩
            simp only [clearAt_append_left hj, List.append_assoc]
          | none => exact ⟨a2, h, by simp only [List.append_assoc]⟩
    obtain ⟨a4, h4, hs⟩ := hstep
    obtain ⟨a3, h3, hf⟩ := ih _ _ a4 h4
    exact ⟨a3, h3, by rw [List.foldl_cons, hs, hf, List.foldl_cons]⟩

theorem foldl_replayStep_length (items : List Item) :
    ∀ st : List LogEntry × List LogEntry, st.1.length = st.2.length →
      (items.foldl replayStep st).1.length = st.1.length + items.length ∧
      (items.foldl replayStep st).2.length = st.1.length + items.length := by
  induction items with
  | nil => intro st h; simp [h]
  | cons it items ih =>
    intro st h
    have hl : (replayStep st it).1.length = (replayStep st it).2.length := by
      simp only [replayStep, List.length_append, List.length_singleton, h]
      split
      · split <;> simp [clearAt_length]
      · rfl
    have h1 : (replayStep st it).1.length = st.1.length + 1 := by simp [replayStep]
    have := ih _ hl
    rw [List.foldl_cons, List.length_cons]
    omega

theorem replay_length (items : List Item) : (replay items).length = items.length := by
  have := (foldl_replayStep_length items ([], []) rfl).2
  simpa [replay] using this

/-- The entries replayed from a suffix of a stream are the corresponding suffix
of the entries replayed from the whole stream. -/
theorem replay_drop (items : List Item) (r : Nat) :
    replay (items.drop r) = (replay items).drop r := by
  rcases Nat.lt_or_ge items.length r with hlt | hge
  · rw [List.drop_eq_nil_iff.mpr (by omega), List.drop_eq_nil_iff.mpr
      (by rw [replay_length]; omega)]
    rfl
  · have hlen := foldl_replayStep_length (items.take r) ([], []) rfl
    obtain ⟨a3, h3, hf⟩ := foldl_replayStep_append (items.drop r)
      ((items.take r).foldl replayStep ([], [])).1 [] []
      ((items.take r).foldl replayStep ([], [])).2 (by omega)
    have hsplit : replay items = a3 ++ replay (items.drop r) := by
      conv_lhs => rw [← List.take_append_drop r items]
      rw [replay, List.foldl_append]
      simp only [List.append_nil] at hf
      rw [hf]
      rfl
    have ha3 : a3.length = r := by
      rw [h3, hlen.1, List.length_take]
      simp only [List.length_nil]
      omega
    rw [hsplit, ← ha3, List.drop_left]

theorem offsets_getElem? (items : List Item) :
    ∀ (i j : Nat), j < items.length →
      (offsets i items)[j]? = some (i + ((items.take j).flatMap Item.bytes).length) := by
  induction items with
  | nil => intro i j h; simp at h
  | cons it items ih =>
    intro i j h
    cases j with
    | zero => simp [offsets]
    | succ j =>
      have hj : j < items.length := by simpa using h
      simp only [offsets, List.getElem?_cons_succ, ih _ j hj, List.take_succ_cons,
        List.flatMap_cons, List.length_append, Nat.add_assoc]

theorem drop_take_flatMap {s : List Byte} {i : Nat} {items : List Item} {rest : List Byte}
    (h : s.drop i = items.flatMap Item.bytes ++ rest) (j : Nat) :
    s.drop (i + ((items.take j).flatMap Item.bytes).length) =
      (items.drop j).flatMap Item.bytes ++ rest := by
  have hsplit : items.flatMap Item.bytes =
      (items.take j).flatMap Item.bytes ++ (items.drop j).flatMap Item.bytes := by
    rw [← List.flatMap_append, List.take_append_drop]
  rw [hsplit, List.append_assoc] at h
  exact drop_append_length h

/-- What the truncator does to a well-formed stream when it removes `r` entries,
`1 ≤ r < k`: it returns `r` and writes the stream whose watermark is the sequence
of item `r - 1` and whose items are the items from `r` on, byte for byte. -/
theorem truncate_streamOf {since : Nat} (hsince : since < 2 ^ 64) (items : List Item)
    (hv : ∀ it ∈ items, it.Valid) (maxLength : Int) (r : Nat) (hr : 1 ≤ r)
    (hrk : r < items.length) (hr63 : (r : Int) < 2 ^ 63)
    (hmax : (items.length : Int) - maxLength = r) (it : Item)
    (hit : items[r - 1]? = some it) :
    TruncateEncodedChangeLog (NewReader (streamOf since items)) maxLength =
      ⟨streamOf it.entry.Sequence (items.drop r), Except.ok (r : Int)⟩ := by
  have h0 : (streamOf since items).drop 0 =
      (writeSequence since).out ++ (items.flatMap Item.bytes ++ []) := by
    simp [streamOf]
  have h1 := drop_append_length h0
  rw [Nat.zero_add] at h1
  have hw : wrapInt ((items.length : Int) - maxLength) = r := by
    rw [hmax]; exact wrapInt_eq (by omega) hr63
  have hnot : ¬ ((r : Int) ≤ 0) := by omega
  have hi1 : ((r : Int) - 1).toNat = r - 1 := by omega
  have hi2 : (r : Int).toNat = r := by omega
  -- the entry whose sequence becomes the watermark
  have hd1 := drop_take_flatMap h1 (r - 1)
  have hdrop1 : items.drop (r - 1) = it :: items.drop r := by
    have hlt : r - 1 < items.length := by omega
    rw [List.drop_eq_getElem_cons hlt]
    have hget : items[r - 1] = it := by
      have := List.getElem?_eq_getElem hlt
      rw [hit] at this
      exact (Option.some.inj this).symm
    rw [hget]
    congr 2
    omega
  rw [hdrop1, List.flatMap_cons, List.append_assoc] at hd1
  have hitv : it.Valid := hv it (List.getElem?_mem hit)
  obtain ⟨-, p1, -⟩ := item_positions hitv hd1
  have hd2 := drop_take_flatMap h1 r
  simp only [List.append_nil] at hd2
  simp only [TruncateEncodedChangeLog, scan_streamOf hsince items hv, offsets_length, hw,
    if_neg hnot, hi1, hi2, offsets_getElem? items _ (r - 1) (by omega),
    offsets_getElem? items _ r hrk, Reader.SeekTo, p1, hd2]
  rfl

/-- C4. Wire truncation commutes with decoding, parent annotations included: for
every well-formed stream of `k` items (fewer than `2 ^ 63`) and every `maxLength`
with `1 ≤ maxLength < k`, decoding the whole stream succeeds with `k` entries,
and decoding the bytes the truncator wrote succeeds with `Since` the sequence of
item `k - maxLength - 1` and with the last `maxLength` entries of the whole
decoding, tombstones included. -/
theorem DecodeChangeLog_TruncateEncodedChangeLog {since : Nat} (hsince : since < 2 ^ 64)
    (items : List Item) (hv : ∀ it ∈ items, it.Valid) (hk : (items.length : Int) < 2 ^ 63)
    (maxLength : Int) (h1 : 1 ≤ maxLength) (h2 : maxLength < items.length) :
    ∃ (full : ChangeLog) (it : Item),
      DecodeChangeLog (NewReader (streamOf since items)) = Except.ok full ∧
      full.Entries.length = items.length ∧
      items[((items.length : Int) - maxLength - 1).toNat]? = some it ∧
      DecodeChangeLog (NewReader
          (TruncateEncodedChangeLog (NewReader (streamOf since items)) maxLength).out) =
        Except.ok { Since := it.entry.Sequence,
                    Entries := full.Entries.drop ((items.length : Int) - maxLength).toNat } := by
  obtain ⟨r, hr⟩ : ∃ r : Nat, (items.length : Int) - maxLength = r :=
    ⟨((items.length : Int) - maxLength).toNat, by omega⟩
  have hr1 : 1 ≤ r := by omega
  have hrk : r < items.length := by omega
  have hlt : r - 1 < items.length := by omega
  have hit : items[r - 1]? = some items[r - 1] := List.getElem?_eq_getElem hlt
  have hitv : items[r - 1].Valid := hv _ (List.getElem?_mem hit)
  have hidx : ((items.length : Int) - maxLength - 1).toNat = r - 1 := by omega
  have hidx2 : ((items.length : Int) - maxLength).toNat = r := by omega
  refine ⟨{ Since := since, Entries := replay items }, items[r - 1],
    DecodeChangeLog_streamOf_replay hsince items hv, replay_length items, ?_, ?_⟩
  · rw [hidx]; exact hit
  · rw [truncate_streamOf hsince items hv maxLength r hr1 hrk (by omega) hr _ hit, hidx2]
    simp only []
    rw [DecodeChangeLog_streamOf_replay hitv.1.1 _
      (fun x hx => hv x (List.mem_of_mem_drop hx)), replay_drop]

/-- The truncation of the test: the four-entry stream cut to two entries gives the
bytes the test asserts, which decode to `Since = 666` and the last two entries. -/
theorem DecodeChangeLog_TruncateEncodedChangeLog_witness :
    (19 : Nat) < 2 ^ 64 ∧ (∀ it ∈ testItems, it.Valid) ∧ (testItems.length : Int) < 2 ^ 63 ∧
      (1 : Int) ≤ 2 ∧ (2 : Int) < testItems.length ∧
      (∃ (full : ChangeLog) (it : Item),
        DecodeChangeLog (NewReader (streamOf 19 testItems)) = Except.ok full ∧
        full.Entries.length = testItems.length ∧
        testItems[((testItems.length : Int) - 2 - 1).toNat]? = some it ∧
        DecodeChangeLog (NewReader
            (TruncateEncodedChangeLog (NewReader (streamOf 19 testItems)) 2).out) =
          Except.ok { Since := it.entry.Sequence,
                      Entries := full.Entries.drop ((testItems.length : Int) - 2).toNat }) ∧
      TruncateEncodedChangeLog (NewReader (streamOf 19 testItems)) 2 =
        ⟨testData3, Except.ok 2⟩ ∧
      DecodeChangeLog (NewReader testData3) =
        Except.ok { Since := 666, Entries :=
          [{ Sequence := 123456, DocID := ascii "a", RevID := ascii "5-cafebabe", Flags := 0 },
           testNewEntry] } :=
  ⟨by decide, by decide, by decide, by decide, by decide,
    DecodeChangeLog_TruncateEncodedChangeLog (by decide) testItems (by decide) (by decide) 2
      (by decide) (by decide),
    by decide, by decide⟩

/-! ## Truncation of a whole-log encoding against `TruncateTo` -/

/-- Truncation equivalence where the wire truncator returns: for a valid log of
fewer than `2 ^ 63` entries and `1 ≤ maxLength < len(entries)`, it returns
`len(entries) - maxLength` and writes bytes that decode to the log that
`TruncateTo(maxLength)` leaves in memory. -/
theorem truncate_Encode_eq_TruncateTo (ch : ChangeLog) (hv : ch.Valid)
    (hk : (ch.Entries.length : Int) < 2 ^ 63) (maxLength : Nat) (h1 : 1 ≤ maxLength)
    (h2 : maxLength < ch.Entries.length) :
    (TruncateEncodedChangeLog (NewReader ch.Encode.out) maxLength).ret =
        Except.ok ((ch.Entries.length : Int) - maxLength) ∧
      (ch.TruncateTo maxLength).2 = ch.Entries.length - maxLength ∧
      DecodeChangeLog (NewReader
          (TruncateEncodedChangeLog (NewReader ch.Encode.out) maxLength).out) =
        Except.ok (ch.TruncateTo maxLength).1 := by
  have hr1 : 1 ≤ ch.Entries.length - maxLength := by omega
  have hrk : ch.Entries.length - maxLength < ch.Entries.length := by omega
  have hlt : ch.Entries.length - maxLength - 1 < ch.Entries.length := by omega
  have hget := List.getElem?_eq_getElem hlt
  have hgv : ch.Entries[ch.Entries.length - maxLength - 1].Valid := hv.2 _ (List.getElem?_mem hget)
  have hiv := fresh_items_valid _ hv.2
  have hit : (ch.Entries.map (fun e => Item.mk e []))[ch.Entries.length - maxLength - 1]? =
      some (Item.mk ch.Entries[ch.Entries.length - maxLength - 1] []) := by
    rw [List.getElem?_map, hget]; rfl
  have htr := truncate_streamOf hv.1 _ hiv (maxLength : Int)
    (ch.Entries.length - maxLength) hr1 (by simpa using hrk) (by omega)
    (by simp only [List.length_map]; omega) _ hit
  have hto : ch.TruncateTo maxLength =
      ({ Since := ch.Entries[ch.Entries.length - maxLength - 1].Sequence,
         Entries := ch.Entries.drop (ch.Entries.length - maxLength) },
        ch.Entries.length - maxLength) := by
    have hne : ¬ (ch.Entries.length - maxLength = 0) := by omega
    simp only [ChangeLog.TruncateTo, if_neg hne, hget]
  rw [Encode_eq_streamOf ch hv, htr, hto]
  refine ⟨?_, rfl, ?_⟩
  · simp only []
    congr 1
    omega
  · simp only []
    rw [← List.map_drop, DecodeChangeLog_streamOf hgv.1 _
      (fresh_items_valid _ (fun e he => hv.2 e (List.mem_of_mem_drop he))),
      foldl_decodeStep_fresh]
    simp

/-- C2 at `maxLength = 0`: on the encoding of the three-entry log of the test the
wire truncator writes the new watermark and then panics with an index out of
range, where `TruncateTo(0)` removes the three entries and leaves the empty log
with `Since = 123456`. -/
theorem TruncateEncodedChangeLog_zero :
    testLog.Valid ∧ (0 : Int) < testLog.Entries.length ∧
      TruncateEncodedChangeLog (NewReader testLog.Encode.out) 0 =
        ⟨[0xc0, 0xc4, 0x07], Except.error Failure.indexOutOfRange⟩ ∧
      testLog.TruncateTo 0 = ({ Since := 123456, Entries := [] }, 3) := by
  refine ⟨by decide, by decide, by decide, by decide⟩

/-! ## Truncated records -/

/-- Reading a varint that is cut short, or just complete, at the end of the
stream: the reader stops where the bytes stop. -/
theorem ReadUvarint_take (n : Nat) :
    ∀ (y x idx sh : Nat) (s : List Byte) (i m : Nat),
      m ≤ (PutUvarint n y).length → s.drop i = (PutUvarint n y).take m →
      (ReadUvarint (n + 1) ⟨s, i⟩ idx x sh).2 = ⟨s, i + m⟩ := by
  induction n with
  | zero =>
    intro y x idx sh s i m hm h
    cases m with
    | zero =>
      rw [List.take_zero] at h
      rw [ReadUvarint.eq_2, ReadByte_nil h]
      rfl
    | succ m =>
      have hm0 : m = 0 := by simp [PutUvarint] at hm; omega
      subst hm0
      simp only [PutUvarint, List.take_succ_cons, List.take_zero] at h
      rw [ReadUvarint.eq_2, ReadByte_cons h]
      simp only [ReadUvarint]
      split
      · split <;> rfl
      · rfl
  | succ n ih =>
    intro y x idx sh s i m hm h
    cases m with
    | zero =>
      rw [List.take_zero] at h
      rw [ReadUvarint.eq_2, ReadByte_nil h]
      rfl
    | succ m =>
      by_cases hge : y ≥ 0x80
      · simp only [PutUvarint, if_pos hge, List.take_succ_cons, List.length_cons] at h hm
        have hz := byte_or_0x80 (y % 256) (Nat.mod_lt _ (by norm_num))
        have hnot : ¬ ((y % 256 ||| 128) < 128) := by omega
        rw [ReadUvarint.eq_2, ReadByte_cons h]
        simp only [if_neg hnot]
        rw [ih _ _ _ _ s (i + 1) m (by omega) (drop_cons_succ h)]
        congr 1
        omega
      · simp only [PutUvarint, if_neg hge, List.length_singleton] at h hm
        have hm0 : m = 0 := by omega
        subst hm0
        have hmod : y % 256 = y := by omega
        have hlt : y < 128 := by omega
        simp only [List.take_succ_cons, List.take_zero, hmod] at h
        rw [ReadUvarint.eq_2, ReadByte_cons h]
        simp only [if_pos hlt]
        split <;> rfl

theorem readString_eof {s : List Byte} {i : Nat} (h : s.drop i = []) :
    readString ⟨s, i⟩ = Except.error Failure.readStringLength := by
  simp only [readString, ReadByte_nil h]

/-- Reading a length-prefixed string of which only the first `m` bytes are left
in the stream. -/
theorem readString_take (x rest : List Byte) (m : Nat) {s : List Byte} {i : Nat}
    (h : s.drop i = (x.length :: (x ++ rest)).take m) :
    (m = 0 → readString ⟨s, i⟩ = Except.error Failure.readStringLength) ∧
    (0 < m → m < 1 + x.length → readString ⟨s, i⟩ = Except.error Failure.readStringBytes) ∧
    (1 + x.length ≤ m →
      readString ⟨s, i⟩ = Except.ok (x, ⟨s, i + 1 + x.length⟩) ∧
      s.drop (i + 1 + x.length) = rest.take (m - 1 - x.length)) := by
  refine ⟨?_, ?_, ?_⟩
  · intro hm
    rw [hm, List.take_zero] at h
    exact readString_eof h
  · intro h0 hlt
    obtain ⟨m1, rfl⟩ : ∃ m1, m = m1 + 1 := ⟨m - 1, by omega⟩
    rw [List.take_succ_cons, List.take_append_of_le_length (by omega)] at h
    have hlen : (s.drop i).length = 1 + m1 := by
      rw [h, List.length_cons, List.length_take]
      omega
    rw [List.length_drop] at hlen
    have hnot : ¬ (i + 1 + x.length ≤ s.length) := by omega
    simp only [readString, ReadByte_cons h, if_neg hnot]
  · intro hge
    obtain ⟨m1, rfl⟩ : ∃ m1, m = m1 + 1 := ⟨m - 1, by omega⟩
    rw [List.take_succ_cons, List.take_append_eq_append_take,
      List.take_of_length_le (by omega)] at h
    refine ⟨readString_eq h, ?_⟩
    have := drop_append_length (x := x.length :: x) h
    simp only [List.length_cons] at this
    rw [show i + 1 + x.length = i + (x.length + 1) by omega, this]
    congr 1

/-- One turn of the decoder's loop on an entry encoding cut short at the end of
the stream. -/
theorem decodeLoop_truncated {it : Item} (hit : it.Valid) {n : Nat} (hn0 : 0 < n)
    (hn : n < it.bytes.length) {s : List Byte} {i : Nat} (hs : s.drop i = it.bytes.take n)
    (fuel : Nat) (entries : List LogEntry) (parents : Parents) :
    decodeLoop (fuel + 1) ⟨s, i⟩ entries parents = Except.error Failure.readStringLength ∨
    decodeLoop (fuel + 1) ⟨s, i⟩ entries parents = Except.error Failure.readStringBytes := by
  have hb := Item.bytes_eq hit
  have hlen : it.bytes.length = 1 + (PutUvarint 9 it.entry.Sequence).length + 1 +
      it.entry.DocID.length + 1 + it.entry.RevID.length + 1 + it.parent.length := by
    rw [hb]; simp only [List.length_cons, List.length_append]; omega
  have hf : ¬ it.entry.Flags > 7 := by have := hit.1.2.1; omega
  obtain ⟨n1, rfl⟩ : ∃ n1, n = n1 + 1 := ⟨n - 1, by omega⟩
  rw [hb, List.take_succ_cons] at hs
  have hs1 := drop_cons_succ hs
  rw [decodeLoop, ReadByte_cons hs]
  simp only [if_neg hf]
  by_cases hv1 : n1 ≤ (PutUvarint 9 it.entry.Sequence).length
  · -- the stream ends inside or right after the sequence
    rw [List.take_append_of_le_length hv1] at hs1
    have hpos := ReadUvarint_take 9 it.entry.Sequence 0 0 0 s (i + 1) n1 hv1 hs1
    have heof : s.drop (i + 1 + n1) = [] := by
      have := @drop_append_length s (i + 1) ((PutUvarint 9 it.entry.Sequence).take n1) []
        (by simpa using hs1)
      rw [List.length_take, Nat.min_eq_left hv1] at this
      exact this
    left
    have hrs : readSequence ⟨s, i + 1⟩ = ((readSequence ⟨s, i + 1⟩).1, ⟨s, i + 1 + n1⟩) := by
      rw [← hpos]; rfl
    rw [hrs]
    simp only [readString_eof heof]
  · -- the sequence is complete
    rw [List.take_append_eq_append_take] at hs1
    rw [List.take_of_length_le (by omega)] at hs1
    have hseq := readSequence_writeSequence hit.1.1 (s := s) (i := i + 1) hs1
    have hs2 := drop_append_length hs1
    simp only [writeSequence] at hseq
    rw [hseq]
    simp only []
    obtain ⟨d0, d1, d2⟩ := readString_take it.entry.DocID _ _ hs2
    by_cases hd : n1 - (PutUvarint 9 it.entry.Sequence).length < 1 + it.entry.DocID.length
    · right
      simp only [d1 (by omega) hd]
    · obtain ⟨dok, hs3⟩ := d2 (by omega)
      simp only [dok]
      obtain ⟨r0, r1, r2⟩ := readString_take it.entry.RevID _ _ hs3
      by_cases hr0 : n1 - (PutUvarint 9 it.entry.Sequence).length - 1 -
          it.entry.DocID.length = 0
      · left
        simp only [r0 hr0]
      · by_cases hr : n1 - (PutUvarint 9 it.entry.Sequence).length - 1 -
            it.entry.DocID.length < 1 + it.entry.RevID.length
        · right
          simp only [r1 (by omega) hr]
        · obtain ⟨rok, hs4⟩ := r2 (by omega)
          simp only [rok]
          have hs5 : s.drop (i + 1 + (PutUvarint 9 it.entry.Sequence).length + 1 +
              it.entry.DocID.length + 1 + it.entry.RevID.length) =
              (it.parent.length :: (it.parent ++ [])).take
                (n1 - (PutUvarint 9 it.entry.Sequence).length - 1 - it.entry.DocID.length - 1 -
                  it.entry.RevID.length) := by
            rw [hs4, List.append_nil]
          obtain ⟨q0, q1, -⟩ := readString_take it.parent [] _ hs5
          by_cases hq0 : n1 - (PutUvarint 9 it.entry.Sequence).length - 1 -
              it.entry.DocID.length - 1 - it.entry.RevID.length = 0
          · left
            simp only [q0 hq0]
          · right
            simp only [q1 (by omega) (by omega)]

/-- C10. Truncated records are a decode failure: on a well-formed stream followed
by a non-empty proper beginning of one more entry encoding, `DecodeChangeLog`
panics in `readString` (on the length byte or on the bytes); on a stream that
ends on an entry boundary it succeeds. -/
theorem DecodeChangeLog_truncated_record {since : Nat} (hsince : since < 2 ^ 64)
    (items : List Item) (hv : ∀ it ∈ items, it.Valid) (it : Item) (hit : it.Valid) (n : Nat)
    (hn0 : 0 < n) (hn : n < it.bytes.length) :
    (DecodeChangeLog (NewReader (streamOf since items ++ it.bytes.take n)) =
        Except.error Failure.readStringLength ∨
      DecodeChangeLog (NewReader (streamOf since items ++ it.bytes.take n)) =
        Except.error Failure.readStringBytes) ∧
    ∃ log : ChangeLog, DecodeChangeLog (NewReader (streamOf since items)) = Except.ok log := by
  refine ⟨?_, _, DecodeChangeLog_streamOf hsince items hv⟩
  obtain ⟨fuel, h⟩ := DecodeChangeLog_items hsince items hv (it.bytes.take n)
  have hd := drop_stream since items (it.bytes.take n)
  rcases decodeLoop_truncated hit hn0 hn hd fuel
    (items.foldl decodeStep ([], fun _ => none)).1
    (items.foldl decodeStep ([], fun _ => none)).2 with h1 | h1
  · left; rw [h, h1]
  · right; rw [h, h1]

/-- The test stream followed by the first 20 bytes of one more entry. -/
theorem DecodeChangeLog_truncated_record_witness :
    (19 : Nat) < 2 ^ 64 ∧ (∀ it ∈ testItems, it.Valid) ∧
      (Item.mk testNewEntry testParent).Valid ∧ 0 < 20 ∧
      20 < (Item.mk testNewEntry testParent).bytes.length ∧
      (DecodeChangeLog (NewReader
            (streamOf 19 testItems ++ (Item.mk testNewEntry testParent).bytes.take 20)) =
          Except.error Failure.readStringLength ∨
        DecodeChangeLog (NewReader
            (streamOf 19 testItems ++ (Item.mk testNewEntry testParent).bytes.take 20)) =
          Except.error Failure.readStringBytes) ∧
      ∃ log : ChangeLog,
        DecodeChangeLog (NewReader (streamOf 19 testItems)) = Except.ok log :=
  ⟨by decide, by decide, by decide, by decide, by decide,
    DecodeChangeLog_truncated_record (by decide) testItems (by decide)
      (Item.mk testNewEntry testParent) (by decide) 20 (by decide) (by decide)⟩

/-! ## The fuel suffices -/

theorem ReadByte_some {r r1 : Reader} {b : Byte} (h : r.ReadByte = (some b, r1)) :
    r1 = ⟨r.s, r.i + 1⟩ ∧ r.i < r.s.length := by
  unfold Reader.ReadByte at h
  cases hb : r.s[r.i]? with
  | none => rw [hb] at h; cases h
  | some c =>
    rw [hb] at h
    simp only [Prod.mk.injEq, Option.some.injEq] at h
    refine ⟨h.2.symm, ?_⟩
    obtain ⟨hlt, -⟩ := List.getElem?_eq_some.mp hb
    exact hlt

theorem ReadUvarint_mono (n : Nat) :
    ∀ (r : Reader) (idx x sh : Nat),
      (ReadUvarint n r idx x sh).2.s = r.s ∧ r.i ≤ (ReadUvarint n r idx x sh).2.i := by
  induction n with
  | zero => intro r idx x sh; simp [ReadUvarint]
  | succ n ih =>
    intro r idx x sh
    rw [ReadUvarint.eq_2]
    cases hrb : r.ReadByte with
    | mk ob r1 =>
      cases ob with
      | none =>
        unfold Reader.ReadByte at hrb
        cases hb : r.s[r.i]? with
        | none =>
          rw [hb] at hrb
          simp only [Prod.mk.injEq, true_and] at hrb
          subst hrb
          simp
        | some c => rw [hb] at hrb; cases hrb
      | some b =>
        obtain ⟨h1, -⟩ := ReadByte_some hrb
        subst h1
        simp only []
        split
        · split <;> simp
        · have := ih ⟨r.s, r.i + 1⟩ (idx + 1) ((x ||| (b &&& 0x7f) <<< sh) % 2 ^ 64) (sh + 7)
          simp only at this
          exact ⟨this.1, by omega⟩

theorem readString_mono {r r1 : Reader} {x : List Byte}
    (h : readString r = Except.ok (x, r1)) : r1.s = r.s ∧ r.i ≤ r1.i := by
  unfold readString at h
  cases hrb : r.ReadByte with
  | mk ob r2 =>
    rw [hrb] at h
    cases ob with
    | none => cases h
    | some b =>
      obtain ⟨h1, -⟩ := ReadByte_some hrb
      subst h1
      simp only at h
      split at h
      · simp only [Except.ok.injEq, Prod.mk.injEq] at h
        rw [← h.2]
        exact ⟨rfl, by simp only; omega⟩
      · cases h

theorem skipString_mono (r : Reader) : (skipString r).s = r.s ∧ r.i ≤ (skipString r).i := by
  unfold skipString
  cases hrb : r.ReadByte with
  | mk ob r1 =>
    cases ob with
    | none =>
      unfold Reader.ReadByte at hrb
      cases hb : r.s[r.i]? with
      | none =>
        rw [hb] at hrb
        simp only [Prod.mk.injEq, true_and] at hrb
        subst hrb
        simp
      | some c => rw [hb] at hrb; cases hrb
    | some b =>
      obtain ⟨h1, -⟩ := ReadByte_some hrb
      subst h1
      exact ⟨rfl, by simp only; omega⟩

theorem decodeLoop_fuel (fuel : Nat) :
    ∀ (r : Reader) (entries : List LogEntry) (parents : Parents),
      r.s.length - r.i < fuel → decodeLoop fuel r entries parents ≠ Except.error Failure.fuel := by
  induction fuel with
  | zero => intro r entries parents h; omega
  | succ fuel ih =>
    intro r entries parents h
    rw [decodeLoop]
    cases hrb : r.ReadByte with
    | mk ob r1 =>
      cases ob with
      | none => simp
      | some b =>
        obtain ⟨h1, hlt⟩ := ReadByte_some hrb
        subst h1
        simp only []
        split
        · simp
        · have hm := ReadUvarint_mono 10 ⟨r.s, r.i + 1⟩ 0 0 0
          cases hd : readString (readSequence ⟨r.s, r.i + 1⟩).2 with
          | error f =>
            unfold readString at hd
            split at hd
            · simp only [Except.error.injEq] at hd; subst hd; simp
            · split at hd
              · cases hd
              · simp only [Except.error.injEq] at hd; subst hd; simp
          | ok v1 =>
            obtain ⟨x1, r3⟩ := v1
            have hm1 := readString_mono hd
            simp only []
            cases hr : readString r3 with
            | error f =>
              unfold readString at hr
              split at hr
              · simp only [Except.error.injEq] at hr; subst hr; simp
              · split at hr
                · cases hr
                · simp only [Except.error.injEq] at hr; subst hr; simp
            | ok v2 =>
              obtain ⟨x2, r4⟩ := v2
              have hm2 := readString_mono hr
              simp only []
              cases hq : readString r4 with
              | error f =>
                unfold readString at hq
                split at hq
                · simp only [Except.error.injEq] at hq; subst hq; simp
                · split at hq
                  · cases hq
                  · simp only [Except.error.injEq] at hq; subst hq; simp
              | ok v3 =>
                obtain ⟨x3, r5⟩ := v3
                have hm3 := readString_mono hq
                simp only []
                apply ih
                simp only [readSequence] at hm1
                simp only at hm
                rw [hm3.1, hm2.1, hm1.1, hm.1]
                omega

/-- The decoder never runs out of fuel, whatever the bytes. -/
theorem DecodeChangeLog_ne_fuel (r : Reader) : DecodeChangeLog r ≠ Except.error Failure.fuel := by
  unfold DecodeChangeLog
  have hm := ReadUvarint_mono 10 r 0 0 0
  have := decodeLoop_fuel (r.s.length + 1) (readSequence r).2 [] (fun _ => none)
    (by simp only [readSequence]; rw [hm.1]; omega)
  cases hd : decodeLoop (r.s.length + 1) (readSequence r).2 [] (fun _ => none) with
  | error f =>
    simp only [hd]
    intro h
    simp only [Except.error.injEq] at h
    rw [h] at hd
    exact this hd
  | ok v => simp [hd]

theorem scanLoop_fuel (fuel : Nat) :
    ∀ (r : Reader) (entryPos : List Nat),
      r.s.length - r.i < fuel → scanLoop fuel r entryPos ≠ Except.error Failure.fuel := by
  induction fuel with
  | zero => intro r entryPos h; omega
  | succ fuel ih =>
    intro r entryPos h
    rw [scanLoop]
    cases hrb : r.ReadByte with
    | mk ob r1 =>
      cases ob with
      | none => simp
      | some b =>
        obtain ⟨h1, hlt⟩ := ReadByte_some hrb
        subst h1
        simp only []
        split
        · simp
        · apply ih
          have hm := ReadUvarint_mono 10 ⟨r.s, r.i + 1⟩ 0 0 0
          have hs1 := skipString_mono (readSequence ⟨r.s, r.i + 1⟩).2
          have hs2 := skipString_mono (skipString (readSequence ⟨r.s, r.i + 1⟩).2)
          have hs3 := skipString_mono
            (skipString (skipString (readSequence ⟨r.s, r.i + 1⟩).2))
          simp only [readSequence] at hs1 hs2 hs3 ⊢
          simp only at hm
          rw [hs3.1, hs2.1, hs1.1, hm.1]
          omega

/-- The truncator never runs out of fuel, whatever the bytes. -/
theorem TruncateEncodedChangeLog_ne_fuel (r : Reader) (maxLength : Int) :
    (TruncateEncodedChangeLog r maxLength).ret ≠ Except.error Failure.fuel := by
  have hm := ReadUvarint_mono 10 r 0 0 0
  have := scanLoop_fuel (r.s.length + 1) (readSequence r).2 []
    (by simp only [readSequence]; rw [hm.1]; omega)
  unfold TruncateEncodedChangeLog
  cases hd : scanLoop (r.s.length + 1) (readSequence r).2 [] with
  | error f =>
    simp only []
    intro h
    simp only [Except.error.injEq] at h
    rw [h] at hd
    exact this hd
  | ok v =>
    obtain ⟨entryPos, r1⟩ := v
    simp only []
    split
    · simp
    · split
      · simp
      · split <;> simp

/-! ## Truncated records under the truncator -/

set_option maxRecDepth 100000 in
/-- C11 on concrete streams that end inside an entry: the decoder panics, the
truncator does not.  It counts the fragment as an entry, returns a count, and
for `maxLength = 2` copies the fragment to the sink. -/
theorem TruncateEncodedChangeLog_cut :
    cutStream.length = 138 ∧
      DecodeChangeLog (NewReader cutStream) = Except.error Failure.readStringBytes ∧
      TruncateEncodedChangeLog (NewReader cutStream) 100 = ⟨[], Except.ok 0⟩ ∧
      TruncateEncodedChangeLog (NewReader cutStream) 2 =
        ⟨[0xc0, 0xc4, 0x07] ++ cutStream.drop 84, Except.ok 3⟩ ∧
      (cutStream.drop 84).drop 34 = (Item.mk testNewEntry testParent).bytes.take 20 ∧
      TruncateEncodedChangeLog (NewReader (streamOf 19 testItems ++ [0x00])) 4 =
        ⟨[0x14] ++ (streamOf 19 testItems ++ [0x00]).drop 31, Except.ok 1⟩ ∧
      TruncateEncodedChangeLog (NewReader (streamOf 19 testItems ++ [0x00, 0x9a])) 5 =
        ⟨[], Except.ok 0⟩ := by
  refine ⟨by decide, by decide, by decide, by decide, by decide, by decide, by decide⟩

/-! ## Flags and identifier lengths on encode -/

theorem foldl_Encode_lengths (es : List LogEntry)
    (hv : ∀ e ∈ es, e.DocID.length ≤ 255 ∧ e.RevID.length ≤ 255) :
    ∀ pre : List Byte,
      (es.foldl (fun acc entry => Wrote.andThen acc (entry.Encode [])) ⟨pre, none⟩).panic =
        none := by
  induction es with
  | nil => intro pre; rfl
  | cons e es ih =>
    intro pre
    have he := hv e (List.mem_cons_self _ _)
    have hq := Encode_eq e [] he.1 he.2 (by simp)
    rw [List.foldl_cons]
    have hstep : Wrote.andThen ⟨pre, none⟩ (e.Encode []) = ⟨pre ++ (e.Encode []).out, none⟩ := by
      rw [hq]; rfl
    rw [hstep]
    exact ih (fun x hx => hv x (List.mem_cons_of_mem _ hx)) _

/-- C12, as stated, fails: an entry with `Flags = 9` is encoded without a panic,
flags byte first, also as part of a whole log. -/
theorem Encode_flags_9 :
    flags9Entry.Flags > 7 ∧
      flags9Entry.Encode [] = ⟨[9, 1, 1, 97, 1, 98, 0], none⟩ ∧
      (ChangeLog.mk 0 [flags9Entry]).Encode = ⟨[0, 9, 1, 1, 97, 1, 98, 0], none⟩ := by
  refine ⟨by decide, by decide, by decide⟩

/-- C12, amended. The encoder does not look at the flags: for every entry with
`Flags > 7` and every parent id, ids of at most 255 bytes, `LogEntry.Encode` does
not panic and writes the flags byte as it is, followed by the sequence and the
three strings; `ChangeLog.Encode` does not panic on any log whose ids are at most
255 bytes, whatever the flags of its entries.  The reserved value is only caught
on read: `DecodeChangeLog` panics with "bad flags" on such an entry. -/
theorem Encode_reserved_flags (e : LogEntry) (p : List Byte) (hf : e.Flags > 7)
    (hd : e.DocID.length ≤ 255) (hr : e.RevID.length ≤ 255) (hp : p.length ≤ 255) :
    e.Encode p =
        ⟨e.Flags :: (PutUvarint 9 e.Sequence ++ (e.DocID.length :: (e.DocID ++
          (e.RevID.length :: (e.RevID ++ (p.length :: p)))))), none⟩ ∧
      (∀ ch : ChangeLog, (∀ x ∈ ch.Entries, x.DocID.length ≤ 255 ∧ x.RevID.length ≤ 255) →
        ch.Encode.panic = none) ∧
      (∀ since : Nat, since < 2 ^ 64 →
        DecodeChangeLog (NewReader ((writeSequence since).out ++ (e.Encode p).out)) =
          Except.error Failure.badFlags) := by
  have hq := Encode_eq e p hd hr hp
  refine ⟨hq, ?_, ?_⟩
  · intro ch hv
    exact foldl_Encode_lengths _ hv _
  · intro since hsince
    obtain ⟨fuel, h⟩ := DecodeChangeLog_items hsince [] (by simp) (e.Encode p).out
    have hs : streamOf since [] = (writeSequence since).out := by simp [streamOf]
    rw [hs] at h
    have hout : (e.Encode p).out = e.Flags :: (PutUvarint 9 e.Sequence ++
        (e.DocID.length :: (e.DocID ++ (e.RevID.length :: (e.RevID ++ (p.length :: p)))))) := by
      rw [hq]
    have hd2 : ((writeSequence since).out ++ (e.Encode p).out).drop
        (writeSequence since).out.length = (e.Encode p).out := List.drop_left _ _
    rw [h, decodeLoop, ReadByte_cons (hd2.trans hout)]
    simp only [if_pos hf]

/-- The entry with `Flags = 9` of the counterexample. -/
theorem Encode_reserved_flags_witness :
    flags9Entry.Flags > 7 ∧ flags9Entry.DocID.length ≤ 255 ∧ flags9Entry.RevID.length ≤ 255 ∧
      testParent.length ≤ 255 ∧
      (flags9Entry.Encode testParent).panic = none ∧
      (flags9Entry.Encode testParent).out.head? = some 9 :=
  ⟨by decide, by decide, by decide, by decide,
    by rw [(Encode_reserved_flags flags9Entry testParent (by decide) (by decide) (by decide)
      (by decide)).1],
    by rw [(Encode_reserved_flags flags9Entry testParent (by decide) (by decide) (by decide)
      (by decide)).1]; rfl⟩

theorem writeString_long {s : List Byte} (h : 255 < s.length) :
    writeString s = ⟨[], some (Failure.idTooLong s)⟩ := by
  simp only [writeString, gt_iff_lt, if_pos h]

/-- C13. Over-long identifiers: `LogEntry.Encode` panics with "Doc/rev ID too long
to encode" on the first of `DocID`, `RevID`, parent that is longer than 255
bytes; it does not panic when all three are at most 255 bytes and the flags are
at most 7; a string of exactly 255 bytes is written with the length byte `0xFF`.
Lengths are lengths in bytes. -/
theorem Encode_id_length (e : LogEntry) (p : List Byte) :
    ((255 < e.DocID.length ∨ 255 < e.RevID.length ∨ 255 < p.length) →
        ∃ s, (e.Encode p).panic = some (Failure.idTooLong s) ∧ 255 < s.length ∧
          (s = e.DocID ∨ s = e.RevID ∨ s = p)) ∧
      (e.DocID.length ≤ 255 → e.RevID.length ≤ 255 → p.length ≤ 255 → e.Flags ≤ 7 →
        (e.Encode p).panic = none) ∧
      (∀ s : List Byte, s.length = 255 → writeString s = ⟨0xFF :: s, none⟩) := by
  refine ⟨?_, ?_, ?_⟩
  · intro h
    by_cases hd : 255 < e.DocID.length
    · exact ⟨e.DocID, by simp [LogEntry.Encode, writeString_long hd, writeSequence,
        Wrote.andThen], hd, Or.inl rfl⟩
    · have hd2 : e.DocID.length ≤ 255 := by omega
      by_cases hr : 255 < e.RevID.length
      · exact ⟨e.RevID, by simp [LogEntry.Encode, writeString_eq hd2, writeString_long hr,
          writeSequence, Wrote.andThen], hr, Or.inr (Or.inl rfl)⟩
      · have hr2 : e.RevID.length ≤ 255 := by omega
        have hp : 255 < p.length := by omega
        exact ⟨p, by simp [LogEntry.Encode, writeString_eq hd2, writeString_eq hr2,
          writeString_long hp, writeSequence, Wrote.andThen], hp, Or.inr (Or.inr rfl)⟩
  · intro hd hr hp _
    rw [Encode_eq e p hd hr hp]
  · intro s hs
    rw [writeString_eq (by omega), hs]

set_option maxRecDepth 100000 in
/-- A `DocID` of 128 two-byte characters is 256 bytes long and is refused; a
string of 255 bytes is written behind the length byte `0xFF`. -/
theorem Encode_id_length_witness :
    longID.length = 256 ∧
      (∃ s, (LogEntry.Encode { testNewEntry with DocID := longID } testParent).panic =
          some (Failure.idTooLong s) ∧ 255 < s.length ∧
          (s = longID ∨ s = testNewEntry.RevID ∨ s = testParent)) ∧
      (testNewEntry.Encode testParent).panic = none ∧
      writeString (List.replicate 255 0x61) = ⟨0xFF :: List.replicate 255 0x61, none⟩ :=
  ⟨by decide,
    (Encode_id_length { testNewEntry with DocID := longID } testParent).1 (Or.inl (by decide)),
    (Encode_id_length testNewEntry testParent).2.1 (by decide) (by decide) (by decide)
      (by decide),
    (Encode_id_length testNewEntry testParent).2.2 _ (by decide)⟩

/-! ## The concrete scenario -/

/-- C14, as stated, fails: with `since = 0` the encoding starts with the byte `00`,
not `13`, and it has 84 bytes where the sequence of the scenario has 82: in that
sequence the flags byte of the second and of the third entry is missing. -/
theorem Encode_scenario_ne :
    scenarioLog.Encode.out ≠ scenarioBytes ∧ scenarioLog.Encode.out.head? = some 0x00 ∧
      scenarioLog.Encode.out.length = 84 ∧ scenarioBytes.length = 82 ∧
      testLog.Encode.out ≠ scenarioBytes := by
  refine ⟨by decide, by decide, by decide, by decide, by decide⟩

/-- C14, amended. The three entries of the scenario under `since = 19`, the
watermark the test's `Add` calls leave, encode to the 84 bytes the test asserts:
`13`, then per entry the flags byte `00`, the sequence varint, the two
length-prefixed ids and the byte `00` of the empty parent id; under `since = 0`
only the first byte differs, `00`. -/
theorem Encode_scenario :
    testLog.Encode = ⟨testData, none⟩ ∧
      testData =
        [0x13] ++
        ([0x00, 0x14, 0x0D] ++ ascii "some document" ++ [0x0C] ++ ascii "1-ajkljkjklj" ++
          [0x00]) ++
        ([0x00, 0x9A, 0x05, 0x0D] ++ ascii "OtherDocument" ++ [0x10] ++
          ascii "666-fjkldfjdkfjd" ++ [0x00]) ++
        ([0x00, 0xC0, 0xC4, 0x07, 0x01] ++ ascii "a" ++ [0x0A] ++ ascii "5-cafebabe" ++
          [0x00]) ∧
      scenarioLog.Encode = ⟨0x00 :: testData.tail, none⟩ := by
  refine ⟨by decide, by decide, by decide⟩

/-! ## The bytes the truncator writes -/

/-- C15. Byte-level result of wire truncation: for every well-formed stream of `k`
items (fewer than `2 ^ 63`) and every `maxLength` with `1 ≤ maxLength < k`, the
truncator returns `k - maxLength` and writes the varint of the sequence of item
`k - maxLength - 1` followed by the bytes of the stream from the starting offset
of item `k - maxLength` to its end, unchanged; the result is the same whatever
the `Since` of the stream was. -/
theorem TruncateEncodedChangeLog_bytes {since : Nat} (hsince : since < 2 ^ 64)
    (items : List Item) (hv : ∀ it ∈ items, it.Valid) (hk : (items.length : Int) < 2 ^ 63)
    (maxLength : Int) (h1 : 1 ≤ maxLength) (h2 : maxLength < items.length) :
    ∃ (it : Item) (pos : Nat),
      items[((items.length : Int) - maxLength - 1).toNat]? = some it ∧
      (offsets (writeSequence since).out.length items)[((items.length : Int) - maxLength).toNat]?
        = some pos ∧
      TruncateEncodedChangeLog (NewReader (streamOf since items)) maxLength =
        ⟨PutUvarint 9 it.entry.Sequence ++ (streamOf since items).drop pos,
          Except.ok ((items.length : Int) - maxLength)⟩ ∧
      ∀ since2 : Nat, since2 < 2 ^ 64 →
        TruncateEncodedChangeLog (NewReader (streamOf since2 items)) maxLength =
          TruncateEncodedChangeLog (NewReader (streamOf since items)) maxLength := by
  obtain ⟨r, hr⟩ : ∃ r : Nat, (items.length : Int) - maxLength = r :=
    ⟨((items.length : Int) - maxLength).toNat, by omega⟩
  have hr1 : 1 ≤ r := by omega
  have hrk : r < items.length := by omega
  have hlt : r - 1 < items.length := by omega
  have hit : items[r - 1]? = some items[r - 1] := List.getElem?_eq_getElem hlt
  have hidx : ((items.length : Int) - maxLength - 1).toNat = r - 1 := by omega
  have hidx2 : ((items.length : Int) - maxLength).toNat = r := by omega
  have h0 : (streamOf since items).drop 0 =
      (writeSequence since).out ++ (items.flatMap Item.bytes ++ []) := by
    simp [streamOf]
  have hd := drop_take_flatMap (drop_append_length h0) r
  simp only [Nat.zero_add, List.append_nil] at hd
  have htr : ∀ s2 : Nat, s2 < 2 ^ 64 →
      TruncateEncodedChangeLog (NewReader (streamOf s2 items)) maxLength =
        ⟨streamOf items[r - 1].entry.Sequence (items.drop r), Except.ok (r : Int)⟩ :=
    fun s2 hs2 => truncate_streamOf hs2 items hv maxLength r hr1 hrk (by omega) hr _ hit
  refine ⟨items[r - 1],
    (writeSequence since).out.length + ((items.take r).flatMap Item.bytes).length,
    ?_, ?_, ?_, ?_⟩
  · rw [hidx]; exact hit
  · rw [hidx2]; exact offsets_getElem? items _ r hrk
  · rw [htr since hsince, hd, hr]
    rfl
  · intro since2 hs2
    rw [htr since2 hs2, htr since hsince]

/-- The truncation of the test: `9A 05`, the varint of 666, followed by the last
two entries of the four-entry stream, which start at offset 66. -/
theorem TruncateEncodedChangeLog_bytes_witness :
    (19 : Nat) < 2 ^ 64 ∧ (∀ it ∈ testItems, it.Valid) ∧ (testItems.length : Int) < 2 ^ 63 ∧
      (1 : Int) ≤ 2 ∧ (2 : Int) < testItems.length ∧
      (∃ (it : Item) (pos : Nat),
        testItems[((testItems.length : Int) - 2 - 1).toNat]? = some it ∧
        (offsets (writeSequence 19).out.length testItems)[((testItems.length : Int) - 2).toNat]?
          = some pos ∧
        TruncateEncodedChangeLog (NewReader (streamOf 19 testItems)) 2 =
          ⟨PutUvarint 9 it.entry.Sequence ++ (streamOf 19 testItems).drop pos,
            Except.ok ((testItems.length : Int) - 2)⟩ ∧
        ∀ since2 : Nat, since2 < 2 ^ 64 →
          TruncateEncodedChangeLog (NewReader (streamOf since2 testItems)) 2 =
            TruncateEncodedChangeLog (NewReader (streamOf 19 testItems)) 2) ∧
      TruncateEncodedChangeLog (NewReader (streamOf 19 testItems)) 2 =
        ⟨[0x9a, 0x05] ++ (streamOf 19 testItems).drop 66, Except.ok 2⟩ ∧
      [0x9a, 0x05] ++ (streamOf 19 testItems).drop 66 = testData3 :=
  ⟨by decide, by decide, by decide, by decide, by decide,
    TruncateEncodedChangeLog_bytes (by decide) testItems (by decide) (by decide) 2
      (by decide) (by decide),
    by decide, by decide⟩

/-! ## The varint is unsigned LEB128 -/

set_option maxRecDepth 100000 in
theorem byte_or_0x80_mod : ∀ z < 256, (z ||| 128) % 128 = z % 128 ∧ (z ||| 128) < 256 := by
  decide

/-- The shape of what `PutUvarint` writes: continuation bytes, then one byte below
`0x80`, standing for the number in base 128, least significant group first. -/
theorem PutUvarint_shape (n : Nat) :
    ∀ y : Nat, y < 2 ^ (7 * (n + 1)) →
      ∃ (init : List Byte) (last : Byte),
        PutUvarint n y = init ++ [last] ∧ init.length ≤ n ∧
        (∀ b ∈ init, 0x80 ≤ b ∧ b < 256) ∧ last < 0x80 ∧ leb128 (PutUvarint n y) = y := by
  induction n with
  | zero =>
    intro y hy
    have hlt : y < 128 := by simpa using hy
    have hmod : y % 256 = y := by omega
    refine ⟨[], y, by simp [PutUvarint, hmod], by simp, by simp, hlt, ?_⟩
    simp only [PutUvarint, hmod, leb128]
    omega
  | succ n ih =>
    intro y hy
    by_cases hge : y ≥ 0x80
    · have hy7 : y >>> 7 < 2 ^ (7 * (n + 1)) := by
        rw [Nat.shiftRight_eq_div_pow]
        have h7 : 7 * (n + 1 + 1) = 7 * (n + 1) + 7 := by omega
        rw [h7, Nat.pow_add] at hy
        exact Nat.div_lt_of_lt_mul (by rw [Nat.mul_comm]; exact hy)
      obtain ⟨init, last, h1, h2, h3, h4, h5⟩ := ih (y >>> 7) hy7
      have hz := byte_or_0x80 (y % 256) (Nat.mod_lt _ (by norm_num))
      have hz2 := byte_or_0x80_mod (y % 256) (Nat.mod_lt _ (by norm_num))
      refine ⟨(y % 256 ||| 0x80) :: init, last, ?_, ?_, ?_, h4, ?_⟩
      · simp only [PutUvarint, if_pos hge, h1, List.cons_append]
      · simp only [List.length_cons]; omega
      · intro b hb
        rcases List.mem_cons.mp hb with hb | hb
        · rw [hb]; exact ⟨hz.2, hz2.2⟩
        · exact h3 b hb
      · simp only [PutUvarint, if_pos hge, leb128, h5, hz2.1]
        rw [Nat.shiftRight_eq_div_pow]
        omega
    · have hlt : y < 128 := by omega
      have hmod : y % 256 = y := by omega
      refine ⟨[], y, by simp [PutUvarint, if_neg hge, hmod], by simp, by simp, hlt, ?_⟩
      simp only [PutUvarint, if_neg hge, hmod, leb128]
      omega

/-- C17. Sequence numbers are standard unsigned LEB128: for every `n < 2 ^ 64`,
`writeSequence` writes between 1 and 10 bytes, all but the last at least `0x80`,
the last below `0x80`, whose low seven bits are the base-128 digits of `n`, least
significant first; `readSequence` on these bytes followed by any bytes returns
`n` and leaves the reader just behind them. -/
theorem writeSequence_leb128 (n : Nat) (hn : n < 2 ^ 64) :
    (writeSequence n).panic = none ∧
      (∃ (init : List Byte) (last : Byte),
        (writeSequence n).out = init ++ [last] ∧
        (∀ b ∈ init, 0x80 ≤ b ∧ b < 256) ∧ last < 0x80) ∧
      1 ≤ (writeSequence n).out.length ∧ (writeSequence n).out.length ≤ 10 ∧
      leb128 (writeSequence n).out = n ∧
      ∀ rest : List Byte,
        readSequence (NewReader ((writeSequence n).out ++ rest)) =
          (n, ⟨(writeSequence n).out ++ rest, (writeSequence n).out.length⟩) := by
  obtain ⟨init, last, h1, h2, h3, h4, h5⟩ :=
    PutUvarint_shape 9 n (Nat.lt_of_lt_of_le hn (by norm_num))
  have hlen : (writeSequence n).out.length = init.length + 1 := by
    simp only [writeSequence, h1, List.length_append, List.length_singleton]
  refine ⟨rfl, ⟨init, last, h1, h3, h4⟩, by omega, by omega, h5, ?_⟩
  intro rest
  have := @readSequence_writeSequence n hn ((writeSequence n).out ++ rest) 0 rest (by simp)
  simpa [NewReader] using this

/-- The sequences of the test: 19 is `13`, 666 is `9A 05`, 123456 is `C0 C4 07`. -/
theorem writeSequence_leb128_witness :
    (writeSequence 19).out = [0x13] ∧ (writeSequence 666).out = [0x9A, 0x05] ∧
      (writeSequence 123456).out = [0xC0, 0xC4, 0x07] ∧
      leb128 [0xC0, 0xC4, 0x07] = 123456 ∧
      readSequence (NewReader ((writeSequence 123456).out ++ [0x01, 0x61])) =
        (123456, ⟨(writeSequence 123456).out ++ [0x01, 0x61], 3⟩) :=
  ⟨by decide, by decide, by decide, by decide,
    ((writeSequence_leb128 123456 (by decide)).2.2.2.2.2 [0x01, 0x61]).trans (by decide)⟩

/-! ## What tombstoning changes -/

theorem lastIdx_some {k : List Byte × List Byte} {l : List LogEntry} {j : Nat}
    (h : lastIdx k l = some j) : ∃ e, l[j]? = some e ∧ (e.DocID, e.RevID) = k := by
  induction l generalizing j with
  | nil => simp [lastIdx] at h
  | cons x xs ih =>
    simp only [lastIdx] at h
    cases hx : lastIdx k xs with
    | some m =>
      rw [hx] at h
      simp only [Option.some.injEq] at h
      obtain ⟨e, he, hk⟩ := ih hx
      exact ⟨e, by rw [← h, List.getElem?_cons_succ]; exact he, hk⟩
    | none =>
      rw [hx] at h
      by_cases hk : (x.DocID, x.RevID) = k
      · simp only [hk, if_true, Option.some.injEq] at h
        exact ⟨x, by rw [← h]; simp, hk⟩
      · simp [hk] at h

theorem clearAt_getElem?_self {es : List LogEntry} {j : Nat} {d : LogEntry}
    (h : es[j]? = some d) : (clearAt es j)[j]? = some d.clear := by
  have hlt : j < es.length := (List.getElem?_eq_some.mp h).1
  simp only [clearAt, h, List.getElem?_set, if_true, if_pos hlt]

theorem clearAt_getElem?_ne (es : List LogEntry) {j i : Nat} (h : j ≠ i) :
    (clearAt es j)[i]? = es[i]? := by
  unfold clearAt
  split
  · simp only [List.getElem?_set, if_neg h]
  · rfl

theorem Resolved_step {pre : List Item} {cur : List LogEntry} (hinv : Resolved pre cur)
    (it : Item) :
    Resolved (pre ++ [it]) (replayStep (pre.map Item.entry, cur) it).2 := by
  obtain ⟨hlen, hall⟩ := hinv
  -- the entries before the new one, after the supersession step
  have hx : ∃ x : List LogEntry, (replayStep (pre.map Item.entry, cur) it).2 = x ++ [it.entry] ∧
      x.length = cur.length ∧
      ∀ (j : Nat) (it1 : Item), pre[j]? = some it1 →
        ∃ d, x[j]? = some d ∧
          (d = it1.entry ∨
            (d = it1.entry.clear ∧
              ∃ (m : Nat) (it2 : Item), j < m ∧ (pre ++ [it])[m]? = some it2 ∧
                it2.entry.DocID = it1.entry.DocID ∧ it2.parent ≠ [] ∧
                it2.parent = it1.entry.RevID)) := by
    have hkeep : ∀ (j : Nat) (it1 : Item), pre[j]? = some it1 →
        ∃ d, cur[j]? = some d ∧
          (d = it1.entry ∨
            (d = it1.entry.clear ∧
              ∃ (m : Nat) (it2 : Item), j < m ∧ (pre ++ [it])[m]? = some it2 ∧
                it2.entry.DocID = it1.entry.DocID ∧ it2.parent ≠ [] ∧
                it2.parent = it1.entry.RevID)) := by
      intro j it1 hj
      obtain ⟨d, hd, hcase⟩ := hall j it1 hj
      refine ⟨d, hd, ?_⟩
      rcases hcase with h | ⟨h, m, it2, hm, hm2, hrest⟩
      · exact Or.inl h
      · refine Or.inr ⟨h, m, it2, hm, ?_, hrest⟩
        have hmlt : m < pre.length := (List.getElem?_eq_some.mp hm2).1
        rw [List.getElem?_append_left hmlt]
        exact hm2
    simp only [replayStep]
    by_cases hp : it.parent = []
    · exact ⟨cur, by simp [hp], rfl, hkeep⟩
    · simp only [ne_eq, hp, not_false_eq_true, if_true]
      cases hl : lastIdx (it.entry.DocID, it.parent) (pre.map Item.entry) with
      | none => exact ⟨cur, rfl, rfl, hkeep⟩
      | some j0 =>
        refine ⟨clearAt cur j0, rfl, clearAt_length _ _, ?_⟩
        intro j it1 hj
        obtain ⟨d, hd, hcase⟩ := hkeep j it1 hj
        by_cases hjj : j0 = j
        · subst hjj
          obtain ⟨e0, he0, hk0⟩ := lastIdx_some hl
          rw [List.getElem?_map, hj] at he0
          simp only [Option.map_some', Option.some.injEq] at he0
          subst he0
          simp only [Prod.mk.injEq] at hk0
          refine ⟨d.clear, clearAt_getElem?_self hd, Or.inr ⟨?_, pre.length, it, ?_, ?_,
            hk0.1.symm, hp, hk0.2.symm⟩⟩
          · rcases hcase with h | ⟨h, -⟩
            · rw [h]
            · rw [h]; rfl
          · exact (List.getElem?_eq_some.mp hj).1
          · simp
        · exact ⟨d, by rw [clearAt_getElem?_ne _ hjj]; exact hd, hcase⟩
  obtain ⟨x, hx1, hx2, hx3⟩ := hx
  rw [hx1]
  refine ⟨by simp [hx2, hlen], ?_⟩
  intro j it1 hj
  rcases Nat.lt_trichotomy j pre.length with hlt | heq | hgt
  · rw [List.getElem?_append_left hlt] at hj
    obtain ⟨d, hd, hcase⟩ := hx3 j it1 hj
    exact ⟨d, by rw [List.getElem?_append_left (by omega)]; exact hd, hcase⟩
  · subst heq
    simp only [List.getElem?_concat_length, Option.some.injEq] at hj
    subst hj
    refine ⟨it.entry, ?_, Or.inl rfl⟩
    rw [← hlen, ← hx2]
    simp
  · rw [List.getElem?_eq_none (by simp; omega)] at hj
    cases hj

theorem Resolved_foldl (rest : List Item) :
    ∀ (pre : List Item) (cur : List LogEntry), Resolved pre cur →
      Resolved (pre ++ rest) (rest.foldl replayStep (pre.map Item.entry, cur)).2 := by
  induction rest with
  | nil => intro pre cur h; simpa using h
  | cons it rest ih =>
    intro pre cur h
    have hs := Resolved_step h it
    have h1 : replayStep (pre.map Item.entry, cur) it =
        ((pre ++ [it]).map Item.entry, (replayStep (pre.map Item.entry, cur) it).2) := by
      simp [replayStep]
    rw [List.foldl_cons, h1]
    have := ih (pre ++ [it]) _ hs
    simpa using this

theorem Resolved_replay (items : List Item) : Resolved items (replay items) := by
  have := Resolved_foldl items [] [] ⟨rfl, fun j it h => by simp at h⟩
  simpa [replay] using this

/-- C16. Tombstoning during decode changes only `DocID` and `RevID`: for every
well-formed stream of `k` items `DecodeChangeLog` returns `k` entries in stream
order; entry `i` has the `Sequence` and `Flags` of item `i`; its ids are the
encoded ones or both empty; and it differs from the encoded entry only if a later
item has the same `DocID` and a non-empty parent id equal to its `RevID`. -/
theorem DecodeChangeLog_tombstones {since : Nat} (hsince : since < 2 ^ 64) (items : List Item)
    (hv : ∀ it ∈ items, it.Valid) :
    ∃ log : ChangeLog,
      DecodeChangeLog (NewReader (streamOf since items)) = Except.ok log ∧
      log.Entries.length = items.length ∧
      ∀ (i : Nat) (it : Item), items[i]? = some it →
        ∃ d, log.Entries[i]? = some d ∧
          d.Sequence = it.entry.Sequence ∧ d.Flags = it.entry.Flags ∧
          ((d.DocID, d.RevID) = (it.entry.DocID, it.entry.RevID) ∨
            (d.DocID, d.RevID) = ([], [])) ∧
          (d ≠ it.entry →
            ∃ (m : Nat) (it2 : Item), i < m ∧ items[m]? = some it2 ∧
              it2.entry.DocID = it.entry.DocID ∧ it2.parent ≠ [] ∧
              it2.parent = it.entry.RevID) := by
  obtain ⟨hlen, hall⟩ := Resolved_replay items
  refine ⟨_, DecodeChangeLog_streamOf_replay hsince items hv, hlen, ?_⟩
  intro i it hi
  obtain ⟨d, hd, hcase⟩ := hall i it hi
  refine ⟨d, hd, ?_⟩
  rcases hcase with h | ⟨h, hw⟩
  · subst h
    exact ⟨rfl, rfl, Or.inl rfl, fun hne => absurd rfl hne⟩
  · subst h
    exact ⟨rfl, rfl, Or.inr rfl, fun _ => hw⟩

/-- The four-entry stream of the test: four entries come back, the first one
cleared by the fourth. -/
theorem DecodeChangeLog_tombstones_witness :
    (19 : Nat) < 2 ^ 64 ∧ (∀ it ∈ testItems, it.Valid) ∧
      ∃ log : ChangeLog,
        DecodeChangeLog (NewReader (streamOf 19 testItems)) = Except.ok log ∧
        log.Entries.length = testItems.length ∧
        ∀ (i : Nat) (it : Item), testItems[i]? = some it →
          ∃ d, log.Entries[i]? = some d ∧
            d.Sequence = it.entry.Sequence ∧ d.Flags = it.entry.Flags ∧
            ((d.DocID, d.RevID) = (it.entry.DocID, it.entry.RevID) ∨
              (d.DocID, d.RevID) = ([], [])) ∧
            (d ≠ it.entry →
              ∃ (m : Nat) (it2 : Item), i < m ∧ testItems[m]? = some it2 ∧
                it2.entry.DocID = it.entry.DocID ∧ it2.parent ≠ [] ∧
                it2.parent = it.entry.RevID) :=
  ⟨by decide, by decide, DecodeChangeLog_tombstones (by decide) testItems (by decide)⟩

/-! ## Truncation to no entries -/

/-- C18, as stated, fails: with `maxLength` the least `int` the subtraction
`len(entryPos) - maxLength` wraps around to a negative number, and the truncator
returns 0 without a panic and without writing. -/
theorem TruncateEncodedChangeLog_min_int :
    (∀ it ∈ testItems, it.Valid) ∧ 1 ≤ testItems.length ∧
      (-9223372036854775808 : Int) ≤ 0 ∧
      TruncateEncodedChangeLog (NewReader (streamOf 19 testItems)) (-9223372036854775808) =
        ⟨[], Except.ok 0⟩ := by
  refine ⟨by decide, by decide, by decide, by decide⟩

/-- C18, amended. For every well-formed stream of `k ≥ 1` items (fewer than
`2 ^ 63`) and every `int` `maxLength ≤ 0`: if `k - 2 ^ 63 < maxLength < 0` the
truncator panics with an index out of range and writes nothing; if
`maxLength = 0` it writes the varint of the sequence of the last item and then
panics with an index out of range; if `maxLength ≤ k - 2 ^ 63` the subtraction
wraps around and it returns 0 and writes nothing.  In no case does it return a
positive count. -/
theorem TruncateEncodedChangeLog_nonpositive {since : Nat} (hsince : since < 2 ^ 64)
    (items : List Item) (hv : ∀ it ∈ items, it.Valid) (hk1 : 1 ≤ items.length)
    (hk : (items.length : Int) < 2 ^ 63) (maxLength : Int) (hmin : -(2 ^ 63) ≤ maxLength)
    (hmax : maxLength ≤ 0) :
    ((items.length : Int) - 2 ^ 63 < maxLength → maxLength < 0 →
        TruncateEncodedChangeLog (NewReader (streamOf since items)) maxLength =
          ⟨[], Except.error Failure.indexOutOfRange⟩) ∧
      (maxLength = 0 →
        ∃ it : Item, items[items.length - 1]? = some it ∧
          TruncateEncodedChangeLog (NewReader (streamOf since items)) maxLength =
            ⟨PutUvarint 9 it.entry.Sequence, Except.error Failure.indexOutOfRange⟩) ∧
      (maxLength ≤ (items.length : Int) - 2 ^ 63 →
        TruncateEncodedChangeLog (NewReader (streamOf since items)) maxLength =
          ⟨[], Except.ok 0⟩) := by
  refine ⟨?_, ?_, ?_⟩
  · intro h1 h2
    have hw : wrapInt ((items.length : Int) - maxLength) = (items.length : Int) - maxLength :=
      wrapInt_eq (by omega) (by omega)
    have hnot : ¬ ((items.length : Int) - maxLength ≤ 0) := by omega
    have hnone : (offsets (writeSequence since).out.length items)[
        ((items.length : Int) - maxLength - 1).toNat]? = none :=
      List.getElem?_eq_none (by rw [offsets_length]; omega)
    simp only [TruncateEncodedChangeLog, scan_streamOf hsince items hv, offsets_length, hw,
      if_neg hnot, hnone]
  · intro h0
    subst h0
    have hlt : items.length - 1 < items.length := by omega
    have hit : items[items.length - 1]? = some items[items.length - 1] :=
      List.getElem?_eq_getElem hlt
    refine ⟨_, hit, ?_⟩
    have hw : wrapInt ((items.length : Int) - 0) = (items.length : Int) :=
      wrapInt_eq (by omega) (by omega)
    have hnot : ¬ ((items.length : Int) ≤ 0) := by omega
    have hi1 : ((items.length : Int) - 1).toNat = items.length - 1 := by omega
    have hi2 : (items.length : Int).toNat = items.length := by omega
    have hnone : (offsets (writeSequence since).out.length items)[items.length]? = none :=
      List.getElem?_eq_none (by rw [offsets_length])
    have h0 : (streamOf since items).drop 0 =
        (writeSequence since).out ++ (items.flatMap Item.bytes ++ []) := by
      simp [streamOf]
    have hd1 := drop_take_flatMap (drop_append_length h0) (items.length - 1)
    rw [Nat.zero_add] at hd1
    have hdrop1 : items.drop (items.length - 1) = [items[items.length - 1]] := by
      rw [List.drop_eq_getElem_cons hlt, List.drop_eq_nil_iff.mpr (by omega)]
    rw [hdrop1, List.flatMap_cons, List.append_assoc] at hd1
    obtain ⟨-, p1, -⟩ := item_positions (hv _ (List.getElem?_mem hit)) hd1
    simp only [TruncateEncodedChangeLog, scan_streamOf hsince items hv, offsets_length, hw,
      if_neg hnot, hi1, hi2, offsets_getElem? items _ (items.length - 1) hlt, hnone,
      Reader.SeekTo, p1]
    rfl
  · intro h1
    have hw : wrapInt ((items.length : Int) - maxLength) ≤ 0 := by
      simp only [wrapInt]
      omega
    simp only [TruncateEncodedChangeLog, scan_streamOf hsince items hv, offsets_length,
      if_pos hw]

/-- The four-entry stream of the test truncated to 0 and to -1 entries. -/
theorem TruncateEncodedChangeLog_nonpositive_witness :
    (19 : Nat) < 2 ^ 64 ∧ (∀ it ∈ testItems, it.Valid) ∧ 1 ≤ testItems.length ∧
      TruncateEncodedChangeLog (NewReader (streamOf 19 testItems)) (-1) =
        ⟨[], Except.error Failure.indexOutOfRange⟩ ∧
      (∃ it : Item, testItems[testItems.length - 1]? = some it ∧
        TruncateEncodedChangeLog (NewReader (streamOf 19 testItems)) 0 =
          ⟨PutUvarint 9 it.entry.Sequence, Except.error Failure.indexOutOfRange⟩) ∧
      TruncateEncodedChangeLog (NewReader (streamOf 19 testItems)) 0 =
        ⟨[0x63], Except.error Failure.indexOutOfRange⟩ :=
  ⟨by decide, by decide, by decide,
    (TruncateEncodedChangeLog_nonpositive (by decide) testItems (by decide) (by decide)
      (by decide) (-1) (by decide) (by decide)).1 (by decide) (by decide),
    (TruncateEncodedChangeLog_nonpositive (by decide) testItems (by decide) (by decide)
      (by decide) 0 (by decide) (by decide)).2.1 rfl,
    by decide⟩

/-! ## The scan of the truncator against the decoder -/

theorem skipString_of_readString {r r1 : Reader} {x : List Byte}
    (h : readString r = Except.ok (x, r1)) : skipString r = r1 := by
  unfold readString at h
  unfold skipString
  cases hrb : r.ReadByte with
  | mk ob r2 =>
    rw [hrb] at h
    cases ob with
    | none => cases h
    | some b =>
      simp only at h ⊢
      split at h
      · simp only [Except.ok.injEq, Prod.mk.injEq] at h
        exact h.2
      · cases h

theorem supersede_length (entries : List LogEntry) (parents : Parents) (d p : List Byte) :
    (supersede entries parents d p).length = entries.length := by
  unfold supersede
  split
  · split <;> simp [clearAt_length]
  · rfl

/-- Where the decoder's loop succeeds, the scan of the truncator succeeds too and
records one offset for each entry decoded; there are no more entries than bytes
left. -/
theorem scanLoop_of_decodeLoop (fuel : Nat) :
    ∀ (r : Reader) (entries : List LogEntry) (parents : Parents) (out : List LogEntry),
      decodeLoop fuel r entries parents = Except.ok out →
      out.length ≤ entries.length + (r.s.length - r.i) ∧
      ∀ entryPos : List Nat,
        ∃ (entryPos2 : List Nat) (r2 : Reader),
          scanLoop fuel r entryPos = Except.ok (entryPos2, r2) ∧
          entryPos2.length + entries.length = entryPos.length + out.length := by
  induction fuel with
  | zero => intro r entries parents out h; simp [decodeLoop] at h
  | succ fuel ih =>
    intro r entries parents out h
    rw [decodeLoop] at h
    cases hrb : r.ReadByte with
    | mk ob r1 =>
      rw [hrb] at h
      cases ob with
      | none =>
        simp only [Except.ok.injEq] at h
        subst h
        refine ⟨by omega, fun entryPos => ⟨entryPos, r1, ?_, rfl⟩⟩
        rw [scanLoop, hrb]
      | some b =>
        obtain ⟨h1, hlt⟩ := ReadByte_some hrb
        subst h1
        simp only at h
        by_cases hb : b > 7
        · simp [hb] at h
        · simp only [if_neg hb] at h
          have hm := ReadUvarint_mono 10 ⟨r.s, r.i + 1⟩ 0 0 0
          cases hd : readString (readSequence ⟨r.s, r.i + 1⟩).2 with
          | error f => simp [hd] at h
          | ok v1 =>
            obtain ⟨x1, r3⟩ := v1
            simp only [hd] at h
            cases hr : readString r3 with
            | error f => simp [hr] at h
            | ok v2 =>
              obtain ⟨x2, r4⟩ := v2
              simp only [hr] at h
              cases hq : readString r4 with
              | error f => simp [hq] at h
              | ok v3 =>
                obtain ⟨x3, r5⟩ := v3
                simp only [hq] at h
                obtain ⟨hle, hscan⟩ := ih _ _ _ _ h
                have hm1 := readString_mono hd
                have hm2 := readString_mono hr
                have hm3 := readString_mono hq
                simp only [readSequence] at hm1
                simp only at hm
                refine ⟨?_, ?_⟩
                · simp only [List.length_append, supersede_length,
                    List.length_singleton] at hle
                  rw [hm3.1, hm2.1, hm1.1, hm.1] at hle
                  omega
                · intro entryPos
                  obtain ⟨entryPos2, r2, hs, hl⟩ := hscan (entryPos ++ [r.i])
                  refine ⟨entryPos2, r2, ?_, ?_⟩
                  · rw [scanLoop, hrb]
                    simp only [if_neg hb, skipString_of_readString hd,
                      skipString_of_readString hr, skipString_of_readString hq]
                    exact hs
                  · simp only [List.length_append, supersede_length,
                      List.length_singleton] at hl
                    omega

/-- C19. The scan of the truncator agrees with the decoder on entry boundaries:
for every byte stream (of fewer than `2 ^ 63` bytes) on which `DecodeChangeLog`
succeeds with `k` entries, and every `int` `maxLength ≥ 1`, the truncator on the
same bytes does not panic and returns `max(0, k - maxLength)`. -/
theorem TruncateEncodedChangeLog_of_DecodeChangeLog (b : List Byte) (log : ChangeLog)
    (maxLength : Int) (hb : (b.length : Int) < 2 ^ 63)
    (hdec : DecodeChangeLog (NewReader b) = Except.ok log) (h1 : 1 ≤ maxLength)
    (hint : maxLength < 2 ^ 63) :
    (TruncateEncodedChangeLog (NewReader b) maxLength).ret =
      Except.ok (max 0 ((log.Entries.length : Int) - maxLength)) := by
  unfold DecodeChangeLog at hdec
  cases hd : decodeLoop ((NewReader b).s.length + 1) (readSequence (NewReader b)).2 []
      (fun _ => none) with
  | error f => simp [hd] at hdec
  | ok out =>
    simp only [hd, Except.ok.injEq] at hdec
    have hout : log.Entries = out := by rw [← hdec]
    obtain ⟨hle, hscan⟩ := scanLoop_of_decodeLoop _ _ _ _ _ hd
    obtain ⟨entryPos, r2, hs, hl⟩ := hscan []
    have hm := ReadUvarint_mono 10 (NewReader b) 0 0 0
    simp only [List.length_nil, Nat.add_zero, Nat.zero_add] at hl hle
    simp only [readSequence] at hle
    rw [hm.1] at hle
    have hk : out.length ≤ b.length := by
      simp only [NewReader] at hle
      omega
    rw [hout]
    unfold TruncateEncodedChangeLog
    simp only [hs, hl]
    have hw : wrapInt ((out.length : Int) - maxLength) = (out.length : Int) - maxLength :=
      wrapInt_eq (by omega) (by omega)
    rw [hw]
    by_cases hrem : (out.length : Int) - maxLength ≤ 0
    · simp only [if_pos hrem]
      congr 1
      omega
    · simp only [if_neg hrem]
      have hlt1 : ((out.length : Int) - maxLength - 1).toNat < entryPos.length := by omega
      have hlt2 : ((out.length : Int) - maxLength).toNat < entryPos.length := by omega
      rw [List.getElem?_eq_getElem hlt1]
      simp only []
      rw [List.getElem?_eq_getElem hlt2]
      simp only []
      congr 1
      omega

/-- The test stream: four entries decoded, two removed when truncating to two,
none when truncating to seven. -/
theorem TruncateEncodedChangeLog_of_DecodeChangeLog_witness :
    ((streamOf 19 testItems).length : Int) < 2 ^ 63 ∧
      DecodeChangeLog (NewReader (streamOf 19 testItems)) =
        Except.ok { Since := 19, Entries := replay testItems } ∧
      (TruncateEncodedChangeLog (NewReader (streamOf 19 testItems)) 2).ret =
        Except.ok (max 0 (((ChangeLog.mk 19 (replay testItems)).Entries.length : Int) - 2)) ∧
      (TruncateEncodedChangeLog (NewReader (streamOf 19 testItems)) 7).ret = Except.ok 0 :=
  ⟨by decide, by decide,
    TruncateEncodedChangeLog_of_DecodeChangeLog (streamOf 19 testItems)
      { Since := 19, Entries := replay testItems } 2 (by decide) (by decide) (by decide)
      (by decide),
    (TruncateEncodedChangeLog_of_DecodeChangeLog (streamOf 19 testItems)
      { Since := 19, Entries := replay testItems } 7 (by decide) (by decide) (by decide)
      (by decide)).trans (by decide)⟩

end channels
